import Mathlib

/-!
A shallow embedding of `src/main.cpp` of the PDFms repository: a concurrent
PDF text search tool with an incremental terminal renderer.

Modelling conventions:
* C++ `std::string` is modelled as `List Char`; CLI arguments as `String`.
* `fs::path` is modelled by its two components used by the program
  (`filename()` and `parent_path()`), since path decomposition is an
  external capability of the standard library.
* The poppler document source is modelled at its interface: a document is a
  list of pages, each page either fails to load (`none`, `create_page`
  returning null) or yields its extracted text.  A document that fails to
  open is `none`.
* Machine integers (`int`, `size_t`) hold small non-negative counts here and
  are modelled as `Nat`; the one place where unsigned subtraction occurs
  (`lastPrintedResultCount - completed_last_iter`) is modelled with truncated
  `Nat` subtraction and an invariant below shows the subtrahend never exceeds
  the minuend on reachable states, so no wrap-around is reachable.
* The concurrent renderer/worker interaction is modelled as explicit state
  passing: worker-side mutations of the shared result vector are `WorkerOp`
  events applied between renderer cycles, and the cooperative abort flag is
  an oracle sampled at exactly the checkpoints where the code reads it.
-/

namespace PDFms

/-! ### Case-insensitive matching (main.cpp lines 99-103, 234) -/

/-- `std::tolower` on an ASCII byte in the C locale (main.cpp line 101). -/
def lowerChar (c : Char) : Char :=
  if 'A' ≤ c ∧ c ≤ 'Z' then Char.ofNat (c.toNat + 32) else c

/-- `tolower(const std::string&)` (main.cpp lines 99-103). -/
def lowerStr (s : List Char) : List Char := s.map lowerChar

/-- Splitting a page's text into lines with the semantics of the
`std::getline` loop at main.cpp lines 229-232: segments are separated by
a newline character, a trailing newline does not produce a final empty
line, and empty input yields no lines. -/
def cppLines : List Char → List (List Char)
  | [] => []
  | c :: cs =>
    if c = '\n' then [] :: cppLines cs
    else
      match cppLines cs with
      | [] => [[c]]
      | l :: ls => (c :: l) :: ls

/-! ### Occurrences and the per-document scan (worker_func, main.cpp 223-243) -/

/-- An occurrence of the target in a document (main.cpp lines 36-40). -/
structure Occurence where
  page : Nat
  line_number : Nat
  line : List Char
deriving DecidableEq, Repr

/-- The line loop of `worker_func` (main.cpp lines 230-242): `n` is the value
of `line_number` before the first remaining line; a line matches when the
lowercase target is a substring of its lowercase form. -/
def scanLines (targetLower : List Char) (pnum : Nat) : Nat → List (List Char) → List Occurence
  | _, [] => []
  | n, l :: ls =>
    if targetLower <:+: lowerStr l then
      ⟨pnum, n + 1, l⟩ :: scanLines targetLower pnum (n + 1) ls
    else
      scanLines targetLower pnum (n + 1) ls

/-- The page loop of `worker_func` without cancellation (main.cpp lines
223-243), starting at page index `i`; a `none` page models
`doc->create_page(i)` returning null (`if (!page) continue`). -/
def scanDocFrom (targetLower : List Char) : Nat → List (Option (List Char)) → List Occurence
  | _, [] => []
  | i, pg :: rest =>
    (match pg with
     | none => []
     | some txt => scanLines targetLower (i + 1) 0 (cppLines txt)) ++
    scanDocFrom targetLower (i + 1) rest

/-- All occurrences produced by scanning a whole document to completion. -/
def scanDoc (targetLower : List Char) (pages : List (Option (List Char))) : List Occurence :=
  scanDocFrom targetLower 0 pages

/-! ### Result records (main.cpp lines 42-48) -/

/-- The two components of `fs::path` the program uses (`filename()` and
`parent_path()`), modelling the external path type at its interface. -/
structure PathParts where
  parent : List Char
  filename : List Char
deriving DecidableEq, Repr, Inhabited

/-- `SearchResult` (main.cpp lines 42-48). `printed` is the rendered flag,
`printingHeight` the wrapped-row count of its last printing. -/
structure SearchResult where
  pdf_path : PathParts
  occurences : List Occurence
  completed : Bool
  printed : Bool
  printingHeight : Nat
deriving DecidableEq, Repr, Inhabited

/-! ### Sorted de-duplicated page lists (main.cpp lines 322-326, 417-422) -/

/-- `std::unique` + `erase` on a list: removes consecutive duplicates. -/
def dedupAdj : List Nat → List Nat
  | [] => []
  | [a] => [a]
  | a :: b :: rest => if a = b then dedupAdj (b :: rest) else a :: dedupAdj (b :: rest)

/-- `std::sort` followed by `std::unique`-erase, as applied to the page
numbers of a record's occurrences. -/
def sortDedup (l : List Nat) : List Nat :=
  dedupAdj (l.insertionSort (· ≤ ·))

/-- The page list displayed for a record (main.cpp lines 322-326). -/
def displayPages (r : SearchResult) : List Nat :=
  sortDedup (r.occurences.map (·.page))

/-! ### The final sorted-report pass (main.cpp lines 388-439) -/

/-- One printed block of the final report: the filename line (with the
parent directory when `--printpath`), the page list line, and the
occurrence-detail lines when `--printline` (main.cpp lines 408-435). -/
structure ReportEntry where
  filename : List Char
  shownParent : Option (List Char)
  pages : List Nat
  details : List Occurence
deriving DecidableEq, Repr

/-- The block printed for one record with occurrences (main.cpp 408-435). -/
def mkEntry (print_line print_path : Bool) (r : SearchResult) : ReportEntry :=
  { filename := r.pdf_path.filename
    shownParent := if print_path then some r.pdf_path.parent else none
    pages := displayPages r
    details := if print_line then r.occurences else [] }

/-- The loop over `resultsSorted` (main.cpp lines 406-437): a block is
printed exactly for the records with a non-empty occurrence list. -/
def reportEntries (print_line print_path : Bool) : List SearchResult → List ReportEntry
  | [] => []
  | r :: rest =>
    if r.occurences.isEmpty then reportEntries print_line print_path rest
    else mkEntry print_line print_path r :: reportEntries print_line print_path rest

/-- What the `--sort` finalizer prints (main.cpp lines 389-439): either the
single no-matches line naming target and root, or the report header
followed by the entries.  Note the code copies `results` without sorting
(the `std::sort` call at lines 394-400 is commented out). -/
inductive FinalReport where
  | noMatches (target : List Char) (dir : List Char)
  | report (entries : List ReportEntry)
deriving DecidableEq, Repr

/-- The finalizer branch for `--sort` (main.cpp lines 389-439);
`resultsSorted` is a plain copy of `results`, and the empty-check at line
402 is on the record list, not on the occurrence counts. -/
def finalize (print_line print_path : Bool) (target dir : List Char)
    (results : List SearchResult) : FinalReport :=
  if results.isEmpty then .noMatches target dir
  else .report (reportEntries print_line print_path results)

/-! ### Command-line parsing (main.cpp lines 144-172) -/

/-- The settings block (main.cpp lines 145-150). -/
structure Opts where
  shuffle : Bool
  sort_result : Bool
  print_line : Bool
  print_path : Bool
  directory : String
  target : String
deriving DecidableEq, Repr

/-- The initial settings (all flags off, both strings empty). -/
def Opts.init : Opts :=
  { shuffle := false, sort_result := false, print_line := false,
    print_path := false, directory := "", target := "" }

/-- One recognized flag? -/
def isFlag (a : String) : Bool :=
  a = "--shuffle" || a = "--sort" || a = "--printline" || a = "--printpath"

/-- The argument loop (main.cpp lines 153-161). -/
def parseLoop : List String → Opts → Opts
  | [], o => o
  | a :: rest, o =>
    parseLoop rest
      (if a = "--shuffle" then { o with shuffle := true }
       else if a = "--sort" then { o with sort_result := true }
       else if a = "--printline" then { o with print_line := true }
       else if a = "--printpath" then { o with print_path := true }
       else if o.directory = "" then { o with directory := a }
       else if o.target = "" then { o with target := a }
       else o)

/-- How `main` proceeds after parsing (main.cpp lines 163-172): `usage`
is the `return 1` path (taken before any thread is started); `run dir tgt o`
means the search runs with root `dir` (the empty string standing for
`fs::current_path()`, line 172) and target `tgt`. -/
inductive StartResult where
  | usage
  | run (directory target : String) (opts : Opts)
deriving DecidableEq, Repr

/-- The decision at main.cpp lines 163-172, including the swap that moves a
lone positional argument from `directory` into `target`. -/
def startOf (args : List String) : StartResult :=
  let o := parseLoop args Opts.init
  if o.target = "" then
    if o.directory ≠ "" then
      .run "" o.directory { o with directory := "", target := o.directory }
    else .usage
  else .run o.directory o.target o

/-- The positional (non-flag, non-empty) arguments; empty strings are
listed separately because assigning one to `directory`/`target` leaves the
slot empty (`std::string::empty` keeps reporting true). -/
def positionals (args : List String) : List String :=
  args.filter (fun a => !isFlag a && a ≠ "")

/-! ### The incremental renderer (main.cpp lines 263-380)

One loop iteration ("cycle") is modelled as a pure function of the renderer
state and a snapshot of the shared `results` vector.  The terminal width is
sampled once per cycle (the claim under study quantifies over widths that
change only at cycle boundaries). -/

/-- `(len + consoleWidth - 1) / consoleWidth` (main.cpp lines 338, 351):
the number of terminal rows a logical line of `len` characters occupies. -/
def wrapRows (w len : Nat) : Nat := (len + w - 1) / w

/-- `line1_content` (main.cpp lines 333-336). -/
def line1Str (print_path : Bool) (p : PathParts) : List Char :=
  p.filename ++ (if print_path then "    ".toList ++ p.parent else [])

/-- The comma-joined page numbers (main.cpp lines 346-349). -/
def pagesJoin : List Nat → List Char
  | [] => []
  | [n] => (toString n).toList
  | n :: rest => (toString n).toList ++ ", ".toList ++ pagesJoin rest

/-- `line2_content` (main.cpp lines 345-349). -/
def line2Str (pages : List Nat) : List Char := "    ".toList ++ pagesJoin pages

/-- The wrapped-row height of a record's two-line block at width `w`. -/
def blockHeight (print_path : Bool) (w : Nat) (r : SearchResult) : Nat :=
  wrapRows w (line1Str print_path r.pdf_path).length +
  wrapRows w (line2Str (displayPages r)).length

/-- The renderer-local variables that survive from one cycle to the next
(main.cpp lines 264, 265, 277, 278). -/
structure RenderState where
  idx_startUnprinted : Nat
  lastPrintedResultCount : Nat
  completed_last_iter : Nat
  progress_printed : Bool
deriving DecidableEq, Repr, Inhabited

/-- The renderer state before the first cycle. -/
def RenderState.init : RenderState := ⟨0, 0, 0, false⟩

/-- Total rows handed to `delete_last_lines` at the start of a cycle
(main.cpp lines 291-294): one for the progress line once it exists, plus
`lastPrintedResultCount - completed_last_iter` for the record rows. -/
def eraseCount (st : RenderState) : Nat :=
  (if st.progress_printed then 1 else 0) +
  (st.lastPrintedResultCount - st.completed_last_iter)

/-- The print loop (main.cpp lines 304-364) over the records from
`idx_startUnprinted` onward: threads `startIncompleteSet`, returns the
updated records, `printedResultCount`, and the final flag. -/
def printPass (print_path : Bool) (w : Nat) :
    List SearchResult → Bool → List SearchResult × Nat × Bool
  | [], startInc => ([], 0, startInc)
  | r :: rest, startInc =>
    if r.completed && r.occurences.isEmpty then
      let res := printPass print_path w rest startInc
      ({ r with printed := true } :: res.1, res.2.1, res.2.2)
    else if !r.completed && r.occurences.isEmpty then
      let res := printPass print_path w rest startInc
      (r :: res.1, res.2.1, res.2.2)
    else
      let h := blockHeight print_path w r
      let r' := { r with printingHeight := h,
                         printed := if r.completed && !startInc then true else r.printed }
      let startInc' := if r.completed && !startInc then startInc
                       else if !startInc then true else startInc
      let res := printPass print_path w rest startInc'
      (r' :: res.1, h + res.2.1, res.2.2)

/-- The watermark-advance loop (main.cpp lines 367-371) over the suffix of
the store from the current `idx_startUnprinted` (passed as `idx`);
accumulates `completed_last_iter` for records with occurrences at a
non-zero index. -/
def advancePass : List SearchResult → Nat → Nat → Nat × Nat
  | [], idx, cli => (idx, cli)
  | r :: rest, idx, cli =>
    if r.printed then
      advancePass rest (idx + 1)
        (if !r.occurences.isEmpty && idx != 0 then cli + r.printingHeight else cli)
    else (idx, cli)

/-- What one renderer cycle did: the state it started from, the state it
left behind, the store with the flag updates it made, the number of rows it
erased, and the number of rows it wrote (records plus the progress line). -/
structure CycleOut where
  stIn : RenderState
  stOut : RenderState
  store : List SearchResult
  erased : Nat
  written : Nat
deriving DecidableEq, Repr, Inhabited

/-- One full cycle of the display loop (main.cpp lines 279-379). -/
def renderCycle (print_path : Bool) (w : Nat) (st : RenderState)
    (store : List SearchResult) : CycleOut :=
  let pr := printPass print_path w (store.drop st.idx_startUnprinted) false
  let adv := advancePass pr.1 st.idx_startUnprinted 0
  { stIn := st
    stOut := { idx_startUnprinted := adv.1, lastPrintedResultCount := pr.2.1,
               completed_last_iter := adv.2, progress_printed := true }
    store := store.take st.idx_startUnprinted ++ pr.1
    erased := eraseCount st
    written := pr.2.1 + 1 }

/-! ### Worker-side mutations of the shared store (worker_func, 216-249) -/

/-- The three mutations a worker performs on the shared `results` vector:
publishing a fresh record after a successful open (lines 216-221),
appending an occurrence (line 237), and marking completion (line 247). -/
inductive WorkerOp where
  | addRecord (path : PathParts)
  | addOcc (i : Nat) (o : Occurence)
  | complete (i : Nat)
deriving DecidableEq, Repr

/-- Apply one worker mutation to the store. -/
def applyOp : WorkerOp → List SearchResult → List SearchResult
  | .addRecord p, s => s ++ [⟨p, [], false, false, 0⟩]
  | .addOcc i o, s => s.modify (fun r => { r with occurences := r.occurences ++ [o] }) i
  | .complete i, s => s.modify (fun r => { r with completed := true }) i

/-- Apply a batch of worker mutations in order. -/
def applyOps (ops : List WorkerOp) (s : List SearchResult) : List SearchResult :=
  ops.foldl (fun s op => applyOp op s) s

/-- What happens between two renderer wake-ups: a batch of worker mutations,
and the terminal width the next cycle observes. -/
structure CycleInput where
  ops : List WorkerOp
  width : Nat
deriving Repr

/-- Run the display loop: before each cycle the pending worker mutations are
applied, then the cycle executes on the resulting snapshot. -/
def runRenderer (print_path : Bool) :
    RenderState → List SearchResult → List CycleInput → List CycleOut
  | _, _, [] => []
  | st, store, inp :: rest =>
    let out := renderCycle print_path inp.width st (applyOps inp.ops store)
    out :: runRenderer print_path out.stOut out.store rest

/-- A complete renderer run from the initial state and the empty store. -/
def runOutputs (print_path : Bool) (inputs : List CycleInput) : List CycleOut :=
  runRenderer print_path RenderState.init [] inputs

/-- The rows a record contributes to `printedResultCount` when it is
reprinted: its block height if it has occurrences, nothing otherwise. -/
def rowContribution (r : SearchResult) : Nat :=
  if r.occurences.isEmpty then 0 else r.printingHeight

/-- Total reprinted rows over a list of records. -/
def cntOf (rs : List SearchResult) : Nat := (rs.map rowContribution).sum

/-- The rows a record at absolute index `i` contributes to
`completed_last_iter` when the watermark passes it (main.cpp 368-369):
nothing at index zero (the bare `idx_startUnprinted` truthiness test). -/
def finContribution (i : Nat) (r : SearchResult) : Nat :=
  if i = 0 then 0 else rowContribution r

/-- Does some record strictly before position `j` of `rs` have occurrences
while not being completed?  Such a record is printed but cannot be marked
`printed`, and it sets `startIncompleteSet` for everything after it. -/
def blockedBefore (rs : List SearchResult) (j : Nat) : Bool :=
  (rs.take j).any (fun r => !r.occurences.isEmpty && !r.completed)

/-! ### The worker loop under cooperative cancellation (worker_func, 194-254)

The shared atomic `aborted` flag is modelled as an oracle `ab : Nat → Bool`
over abstract read instants; the worker reads it exactly where the code
does: at the head of the claim loop (line 195) and in the page-loop
condition (line 224).  Each read consumes one instant. -/

/-- The observable checkpointed actions of a worker: claiming a document
index from the shared counter, and starting a page of a claimed document.
Each carries the instant of the flag read that guarded it. -/
inductive WEv where
  | claim (t idx : Nat)
  | page (t idx pnum : Nat)
deriving DecidableEq, Repr

/-- The instant of the flag read guarding an event. -/
def WEv.time : WEv → Nat
  | .claim t _ => t
  | .page t _ _ => t

/-- The record a worker leaves for one document: its index in the file
list, its occurrences, and its completion flag. -/
structure WRecord where
  idx : Nat
  occurences : List Occurence
  completed : Bool
deriving DecidableEq, Repr

/-- The page loop of `worker_func` (main.cpp lines 224-243) with the
cancellation check of its condition: `t` is the instant of the next flag
read, `i` the next page index; returns the page events, the occurrences
found, and the instant after the loop. -/
def runDocAux (tl : List Char) (ab : Nat → Bool) (idx : Nat) :
    Nat → Nat → List (Option (List Char)) → List WEv × List Occurence × Nat
  | t, _, [] => ([], [], t)
  | t, i, pg :: rest =>
    if ab t then ([], [], t + 1)
    else
      let occs := match pg with
        | none => []
        | some txt => scanLines tl (i + 1) 0 (cppLines txt)
      let res := runDocAux tl ab idx (t + 1) (i + 1) rest
      (WEv.page t idx (i + 1) :: res.1, occs ++ res.2.1, res.2.2)

/-- The claim loop of `worker_func` (main.cpp lines 194-254).  `claims` is
the sequence of indices the shared `fetch_add` hands this worker while it
keeps asking; an exhausted list models `idx >= total_files`.  A `none`
document is an open failure (lines 212-215): no record is published. -/
def workerRun (tl : List Char) (docs : List (Option (List (Option (List Char)))))
    (ab : Nat → Bool) : Nat → List Nat → List WEv × List WRecord × Nat
  | t, [] => ([], [], t)
  | t, idx :: rest =>
    if ab t then ([], [], t)
    else
      match docs.getD idx none with
      | none =>
        let res := workerRun tl docs ab (t + 1) rest
        (WEv.claim t idx :: res.1, res.2.1, res.2.2)
      | some pages =>
        let d := runDocAux tl ab idx (t + 1) 0 pages
        let res := workerRun tl docs ab d.2.2 rest
        (WEv.claim t idx :: (d.1 ++ res.1), ⟨idx, d.2.1, true⟩ :: res.2.1, res.2.2)

/-- The abort flag of a run that is never cancelled. -/
def noAbort : Nat → Bool := fun _ => false

/-- Occurrences a full, uncancelled scan of document `i` contributes. -/
def docOcc (tl : List Char) (docs : List (Option (List (Option (List Char)))))
    (i : Nat) : Nat :=
  match docs.getD i none with
  | none => 0
  | some pages => (scanDoc tl pages).length

/-- Total occurrences over a worker's records. -/
def recsTotal (recs : List WRecord) : Nat := (recs.map (·.occurences.length)).sum

/-- Total matched occurrences of a complete uncancelled run in which worker
`k` is handed the claim sequence `claimss[k]`. -/
def scheduleTotal (tl : List Char) (docs : List (Option (List (Option (List Char)))))
    (claimss : List (List Nat)) : Nat :=
  (claimss.map (fun cs => recsTotal (workerRun tl docs noAbort 0 cs).2.1)).sum

/-! ### Derived definitions used by the development below -/

/-- The abort oracle that becomes true from instant `cut` on. -/
def abCut (cut : Nat) : Nat → Bool := fun t => decide (cut ≤ t)

/-- The evolution of the `(directory, target)` pair alone under the
argument loop (the four flag branches leave both strings unchanged). -/
def slots : String × String → List String → String × String
  | p, [] => p
  | (d, t), a :: rest =>
    slots (if isFlag a then (d, t)
           else if d = "" then (a, t)
           else if t = "" then (d, a)
           else (d, t)) rest

/-- The target string the program runs with, if it runs. -/
def runTargetOf : StartResult → Option String
  | .usage => none
  | .run _ tgt _ => some tgt

/-- The root-directory string the program runs with, if it runs (the empty
string stands for `fs::current_path()`). -/
def runDirOf : StartResult → Option String
  | .usage => none
  | .run dir _ _ => some dir

/-- Lexicographic (code-point) strict comparison of character lists. -/
def charsLt : List Char → List Char → Bool
  | [], [] => false
  | [], _ :: _ => true
  | _ :: _, [] => false
  | a :: as, b :: bs => if a < b then true else if b < a then false else charsLt as bs

/-- The full path string of a record, rebuilt from its two components. -/
def pathStr (p : PathParts) : List Char := p.parent ++ '/' :: p.filename

/-- Minimum of a list of naturals, zero on the empty list. -/
def minNat : List Nat → Nat
  | [] => 0
  | x :: xs => xs.foldl min x

/-- A record's minimum matched page. -/
def minPage (r : SearchResult) : Nat := minNat (r.occurences.map (·.page))

/-- A record's minimum matched line number. -/
def minLine (r : SearchResult) : Nat := minNat (r.occurences.map (·.line_number))

/-- The order the spec prescribes for the final report: by path
lexicographically, then by minimum page, then by minimum line number. -/
def specKeyLE (a b : SearchResult) : Bool :=
  charsLt (pathStr a.pdf_path) (pathStr b.pdf_path) ||
  (pathStr a.pdf_path = pathStr b.pdf_path &&
    (minPage a < minPage b ||
      (minPage a = minPage b && minLine a ≤ minLine b)))

/-- The records whose blocks the final pass prints, in print order. -/
def reportedRecords (results : List SearchResult) : List SearchResult :=
  results.filter (fun r => !r.occurences.isEmpty)

/-- A completed record for `a.pdf` with one occurrence. -/
def raC : SearchResult := ⟨⟨[], "a.pdf".toList⟩, [⟨1, 1, "t".toList⟩], true, false, 0⟩

/-- A completed record for `b.pdf` with one occurrence. -/
def rbC : SearchResult := ⟨⟨[], "b.pdf".toList⟩, [⟨1, 1, "t".toList⟩], true, false, 0⟩

/-- A completed record with zero occurrences. -/
def r0C : SearchResult := ⟨⟨[], "a.pdf".toList⟩, [], true, false, 0⟩

/-- The value `startIncompleteSet` has after the loop body handled a record
with occurrences (main.cpp lines 358-363). -/
def nextStartInc (b : Bool) (r : SearchResult) : Bool :=
  if r.completed && !b then b else if !b then true else b

/-- `completed_last_iter` contributions over the first `m` records of a
suffix whose first absolute index is `a`. -/
def finSum : Nat → List SearchResult → Nat → Nat
  | _, _, 0 => 0
  | _, [], _ + 1 => 0
  | a, r :: rest, m + 1 => finContribution a r + finSum (a + 1) rest m

/-- Total `completed_last_iter` contribution of the records with absolute
indices in `[a, b)` of `store`: the wrapped rows of the finalized records
left standing on screen. -/
def finRows (store : List SearchResult) (a b : Nat) : Nat :=
  finSum a (store.drop a) (b - a)

/-- The renderer's invariant over the shared store: the watermark stays
within the store, everything strictly below it is printed, and a printed
record is always completed. -/
def StoreInv (st : RenderState) (store : List SearchResult) : Prop :=
  st.idx_startUnprinted ≤ store.length ∧
  (∀ (j : Nat) (r : SearchResult), j < st.idx_startUnprinted → store[j]? = some r →
    r.printed = true) ∧
  (∀ (j : Nat) (r : SearchResult), store[j]? = some r → r.printed = true →
    r.completed = true)

/-- A path used by the concrete runs below. -/
def pA : PathParts := ⟨"d".toList, "a.pdf".toList⟩

/-- A second path used by the concrete runs below. -/
def pB : PathParts := ⟨"d".toList, "b.pdf".toList⟩

/-- An occurrence used by the concrete runs below. -/
def oX : Occurence := ⟨1, 1, "x".toList⟩

/-- A one-cycle run for the C7 witness: one record, opened, matched and
completed before the first redraw. -/
def c7Inputs : List CycleInput :=
  [⟨[.addRecord pA, .addOcc 0 oX, .complete 0], 80⟩]

/-- The single cycle of that run. -/
def c7Out : CycleOut := (runOutputs false c7Inputs).headD default

/-- An unfinished record with no occurrences yet (a gap). -/
def gapRec : SearchResult := ⟨pA, [], false, false, 0⟩

/-- A completed record with one occurrence. -/
def okRec : SearchResult := ⟨pB, [oX], true, false, 0⟩

/-- What the print loop leaves of `okRec` when it sits after the gap. -/
def okRecOut : SearchResult := ⟨pB, [oX], true, true, 2⟩

/-- A one-cycle run in which record 0 is an unfinished gap and record 1 is
already completed with an occurrence. -/
def c3Inputs : List CycleInput :=
  [⟨[.addRecord pA, .addRecord pB, .addOcc 1 oX, .complete 1], 80⟩]

/-- The store after that cycle. -/
def c3Store : List SearchResult := ((runOutputs false c3Inputs).headD default).store

/-- A two-cycle run: both records are complete before the first redraw, so
the watermark passes both at the end of cycle 0 and cycle 1 erases fewer
rows than cycle 0 wrote. -/
def c1Inputs : List CycleInput :=
  [⟨[.addRecord pA, .addOcc 0 oX, .complete 0, .addRecord pB, .addOcc 1 oX, .complete 1], 80⟩,
   ⟨[], 80⟩]

/-- Cycle 0 of the two-cycle run. -/
def c1x : CycleOut := (runOutputs false c1Inputs).headD default

/-- Cycle 1 of the two-cycle run. -/
def c1y : CycleOut := (runOutputs false c1Inputs).getD 1 default

/-! ## Lemmas about the per-document scan -/

theorem scanLines_mem {tl : List Char} {p : Nat} :
    ∀ {n : Nat} {ls : List (List Char)} {o : Occurence},
      o ∈ scanLines tl p n ls ↔
        ∃ j l, ls[j]? = some l ∧ tl <:+: lowerStr l ∧ o = ⟨p, n + j + 1, l⟩ := by
  intro n ls
  induction ls generalizing n with
  | nil => intro o; simp [scanLines]
  | cons l ls ih =>
    intro o
    constructor
    · intro hmem
      by_cases h : tl <:+: lowerStr l
      · rw [scanLines, if_pos h] at hmem
        rcases List.mem_cons.mp hmem with rfl | hmem'
        · exact ⟨0, l, by simp, h, rfl⟩
        · obtain ⟨j, l', hj, hm, rfl⟩ := ih.mp hmem'
          have harith : n + 1 + j + 1 = n + (j + 1) + 1 := by omega
          exact ⟨j + 1, l', by simpa using hj, hm, by rw [harith]⟩
      · rw [scanLines, if_neg h] at hmem
        obtain ⟨j, l', hj, hm, rfl⟩ := ih.mp hmem
        have harith : n + 1 + j + 1 = n + (j + 1) + 1 := by omega
        exact ⟨j + 1, l', by simpa using hj, hm, by rw [harith]⟩
    · rintro ⟨j, l', hj, hm, rfl⟩
      match j, hj with
      | 0, hj =>
        have hl : l' = l := by simpa using hj.symm
        subst hl
        rw [scanLines, if_pos hm]
        exact List.mem_cons_self _ _
      | j + 1, hj =>
        have hj' : ls[j]? = some l' := by simpa using hj
        have : (⟨p, (n + 1) + j + 1, l'⟩ : Occurence) ∈ scanLines tl p (n + 1) ls :=
          ih.mpr ⟨j, l', hj', hm, rfl⟩
        have harith : n + 1 + j + 1 = n + (j + 1) + 1 := by omega
        rw [harith] at this
        by_cases h : tl <:+: lowerStr l
        · rw [scanLines, if_pos h]; exact List.mem_cons_of_mem _ this
        · rw [scanLines, if_neg h]; exact this

theorem scanDocFrom_mem {tl : List Char} :
    ∀ {i : Nat} {pages : List (Option (List Char))} {o : Occurence},
      o ∈ scanDocFrom tl i pages ↔
        ∃ j txt, pages[j]? = some (some txt) ∧ o ∈ scanLines tl (i + j + 1) 0 (cppLines txt) := by
  intro i pages
  induction pages generalizing i with
  | nil => intro o; simp [scanDocFrom]
  | cons pg rest ih =>
    intro o
    simp only [scanDocFrom]
    rw [List.mem_append]
    constructor
    · rintro (hmem | hmem)
      · match pg, hmem with
        | some txt, hmem => exact ⟨0, txt, by simp, by simpa using hmem⟩
      · obtain ⟨j, txt, hj, hm⟩ := ih.mp hmem
        refine ⟨j + 1, txt, by simpa using hj, ?_⟩
        have : i + 1 + j + 1 = i + (j + 1) + 1 := by omega
        rwa [this] at hm
    · rintro ⟨j, txt, hj, hm⟩
      match j, hj with
      | 0, hj =>
        have : pg = some txt := by simpa using hj
        subst this
        exact Or.inl (by simpa using hm)
      | j + 1, hj =>
        have hj' : rest[j]? = some (some txt) := by simpa using hj
        have : i + 1 + j + 1 = i + (j + 1) + 1 := by omega
        exact Or.inr (ih.mpr ⟨j, txt, hj', by rwa [this]⟩)

/-- Every occurrence a page scan yields carries that page's number. -/
theorem scanLines_page {tl : List Char} {p : Nat} :
    ∀ {n : Nat} {ls : List (List Char)} {o : Occurence}, o ∈ scanLines tl p n ls → o.page = p := by
  intro n ls o h
  obtain ⟨j, l, _, _, rfl⟩ := scanLines_mem.mp h
  rfl

/-- Line numbers a page scan yields exceed the starting counter. -/
theorem scanLines_ln_lt {tl : List Char} {p : Nat} :
    ∀ {n : Nat} {ls : List (List Char)} {o : Occurence},
      o ∈ scanLines tl p n ls → n < o.line_number := by
  intro n ls o h
  obtain ⟨j, l, _, _, rfl⟩ := scanLines_mem.mp h
  simp only []
  omega

/-- Within one page the produced line numbers strictly increase. -/
theorem scanLines_ln_pairwise {tl : List Char} {p : Nat} :
    ∀ {n : Nat} {ls : List (List Char)},
      ((scanLines tl p n ls).map (·.line_number)).Pairwise (· < ·) := by
  intro n ls
  induction ls generalizing n with
  | nil => simp [scanLines]
  | cons l ls ih =>
    by_cases h : tl <:+: lowerStr l
    · rw [scanLines, if_pos h]
      simp only [List.map_cons, List.pairwise_cons]
      refine ⟨?_, ih⟩
      intro m hm
      obtain ⟨o, ho, rfl⟩ := List.mem_map.mp hm
      exact scanLines_ln_lt ho
    · rw [scanLines, if_neg h]
      exact ih

/-- Pages of occurrences from the tail pages exceed the start index. -/
theorem scanDocFrom_page_lt {tl : List Char} :
    ∀ {i : Nat} {pages : List (Option (List Char))} {o : Occurence},
      o ∈ scanDocFrom tl i pages → i < o.page := by
  intro i pages o h
  obtain ⟨j, txt, _, hm⟩ := scanDocFrom_mem.mp h
  have := scanLines_page hm
  omega

/-- Each (page, line) pair indexes at most one occurrence of a scan. -/
theorem scanDocFrom_keys_nodup {tl : List Char} :
    ∀ {i : Nat} {pages : List (Option (List Char))},
      ((scanDocFrom tl i pages).map (fun o => (o.page, o.line_number))).Nodup := by
  intro i pages
  induction pages generalizing i with
  | nil => simp [scanDocFrom]
  | cons pg rest ih =>
    simp only [scanDocFrom]
    rw [List.map_append]
    refine List.Nodup.append ?_ ih ?_
    · match pg with
      | none => simp
      | some txt =>
        have hpw := @scanLines_ln_pairwise tl (i + 1) 0 (cppLines txt)
        have : ((scanLines tl (i + 1) 0 (cppLines txt)).map (fun o => (o.page, o.line_number))).Pairwise (· ≠ ·) := by
          rw [List.pairwise_map]
          rw [List.pairwise_map] at hpw
          refine hpw.imp ?_
          intro a b hlt hcontra
          have : a.line_number = b.line_number := by
            have := congrArg Prod.snd hcontra
            simpa using this
          omega
        exact this
    · intro k hk hk'
      match pg with
      | none => simp at hk
      | some txt =>
        obtain ⟨o, ho, rfl⟩ := List.mem_map.mp hk
        obtain ⟨o', ho', heq⟩ := List.mem_map.mp hk'
        have h1 := scanLines_page ho
        have h2 := scanDocFrom_page_lt ho'
        have : o'.page = o.page := by
          have := congrArg Prod.fst heq
          simpa using this
        omega

/-! ## Unfolding equations for the worker loop -/

theorem runDocAux_nil (tl : List Char) (ab : Nat → Bool) (idx t i : Nat) :
    runDocAux tl ab idx t i [] = ([], [], t) := rfl

theorem runDocAux_cons_ab {ab : Nat → Bool} {t : Nat} (hab : ab t = true)
    (tl : List Char) (idx i : Nat) (pg : Option (List Char)) (rest : List (Option (List Char))) :
    runDocAux tl ab idx t i (pg :: rest) = ([], [], t + 1) := by
  simp [runDocAux, hab]

theorem runDocAux_cons_go {ab : Nat → Bool} {t : Nat} (hab : ¬ ab t = true)
    (tl : List Char) (idx i : Nat) (pg : Option (List Char)) (rest : List (Option (List Char))) :
    runDocAux tl ab idx t i (pg :: rest) =
      (WEv.page t idx (i + 1) :: (runDocAux tl ab idx (t + 1) (i + 1) rest).1,
       (match pg with
        | none => []
        | some txt => scanLines tl (i + 1) 0 (cppLines txt)) ++
         (runDocAux tl ab idx (t + 1) (i + 1) rest).2.1,
       (runDocAux tl ab idx (t + 1) (i + 1) rest).2.2) := by
  cases pg <;> simp [runDocAux, hab]

theorem workerRun_nil (tl : List Char) (docs : List (Option (List (Option (List Char)))))
    (ab : Nat → Bool) (t : Nat) : workerRun tl docs ab t [] = ([], [], t) := rfl

theorem workerRun_cons_ab {ab : Nat → Bool} {t : Nat} (hab : ab t = true)
    (tl : List Char) (docs : List (Option (List (Option (List Char)))))
    (idx : Nat) (rest : List Nat) :
    workerRun tl docs ab t (idx :: rest) = ([], [], t) := by
  rw [workerRun, if_pos hab]

theorem workerRun_cons_fail {docs : List (Option (List (Option (List Char))))}
    {ab : Nat → Bool} {t idx : Nat} (hab : ¬ ab t = true)
    (hd : docs.getD idx none = none) (tl : List Char) (rest : List Nat) :
    workerRun tl docs ab t (idx :: rest) =
      (WEv.claim t idx :: (workerRun tl docs ab (t + 1) rest).1,
       (workerRun tl docs ab (t + 1) rest).2.1,
       (workerRun tl docs ab (t + 1) rest).2.2) := by
  rw [workerRun, if_neg hab, hd]

theorem workerRun_cons_ok {docs : List (Option (List (Option (List Char))))}
    {ab : Nat → Bool} {t idx : Nat} {pages : List (Option (List Char))}
    (hab : ¬ ab t = true) (hd : docs.getD idx none = some pages)
    (tl : List Char) (rest : List Nat) :
    workerRun tl docs ab t (idx :: rest) =
      (WEv.claim t idx ::
        ((runDocAux tl ab idx (t + 1) 0 pages).1 ++
          (workerRun tl docs ab (runDocAux tl ab idx (t + 1) 0 pages).2.2 rest).1),
       ⟨idx, (runDocAux tl ab idx (t + 1) 0 pages).2.1, true⟩ ::
         (workerRun tl docs ab (runDocAux tl ab idx (t + 1) 0 pages).2.2 rest).2.1,
       (workerRun tl docs ab (runDocAux tl ab idx (t + 1) 0 pages).2.2 rest).2.2) := by
  rw [workerRun, if_neg hab, hd]

/-- `recsTotal` over a cons. -/
theorem recsTotal_cons (r : WRecord) (recs : List WRecord) :
    recsTotal (r :: recs) = r.occurences.length + recsTotal recs := rfl

/-! ## Lemmas about the worker loop -/

/-- Without cancellation, the page loop finds exactly the full scan. -/
theorem runDocAux_noAbort (tl : List Char) (idx : Nat) :
    ∀ (t i : Nat) (pages : List (Option (List Char))),
      (runDocAux tl noAbort idx t i pages).2.1 = scanDocFrom tl i pages := by
  intro t i pages
  induction pages generalizing t i with
  | nil => rfl
  | cons pg rest ih =>
    rw [runDocAux_cons_go (by simp [noAbort]) tl idx i pg rest]
    show (match pg with
      | none => []
      | some txt => scanLines tl (i + 1) 0 (cppLines txt)) ++
        (runDocAux tl noAbort idx (t + 1) (i + 1) rest).2.1 = scanDocFrom tl i (pg :: rest)
    rw [ih]
    rfl

/-- Every page event of the page loop was guarded by a false flag read. -/
theorem runDocAux_events {tl : List Char} {ab : Nat → Bool} {idx : Nat} :
    ∀ {t i : Nat} {pages : List (Option (List Char))} {ev : WEv},
      ev ∈ (runDocAux tl ab idx t i pages).1 → ab ev.time = false := by
  intro t i pages
  induction pages generalizing t i with
  | nil => intro ev h; exact absurd h (List.not_mem_nil _)
  | cons pg rest ih =>
    intro ev h
    by_cases hab : ab t = true
    · rw [runDocAux_cons_ab hab] at h
      exact absurd h (List.not_mem_nil _)
    · rw [runDocAux_cons_go hab] at h
      rcases List.mem_cons.mp h with rfl | h
      · show ab t = false
        simpa using hab
      · exact ih h

/-- The occurrences the page loop produced are a prefix of the full scan. -/
theorem runDocAux_occ_isPre {tl : List Char} {ab : Nat → Bool} {idx : Nat} :
    ∀ {t i : Nat} {pages : List (Option (List Char))},
      (runDocAux tl ab idx t i pages).2.1 <+: scanDocFrom tl i pages := by
  intro t i pages
  induction pages generalizing t i with
  | nil => exact List.nil_prefix
  | cons pg rest ih =>
    by_cases hab : ab t = true
    · rw [runDocAux_cons_ab hab]
      exact List.nil_prefix
    · rw [runDocAux_cons_go hab]
      show (match pg with
        | none => []
        | some txt => scanLines tl (i + 1) 0 (cppLines txt)) ++
          (runDocAux tl ab idx (t + 1) (i + 1) rest).2.1 <+:
        (match pg with
        | none => []
        | some txt => scanLines tl (i + 1) 0 (cppLines txt)) ++
          scanDocFrom tl (i + 1) rest
      obtain ⟨tail, htail⟩ := @ih (t + 1) (i + 1)
      exact ⟨tail, by rw [List.append_assoc, htail]⟩

/-- Every claim or page event of a worker run was guarded by a false flag
read. -/
theorem workerRun_events {tl : List Char} {docs : List (Option (List (Option (List Char))))}
    {ab : Nat → Bool} :
    ∀ {t : Nat} {claims : List Nat} {ev : WEv},
      ev ∈ (workerRun tl docs ab t claims).1 → ab ev.time = false := by
  intro t claims
  induction claims generalizing t with
  | nil => intro ev h; exact absurd h (List.not_mem_nil _)
  | cons idx rest ih =>
    intro ev h
    by_cases hab : ab t = true
    · rw [workerRun_cons_ab hab] at h
      exact absurd h (List.not_mem_nil _)
    · cases hd : docs.getD idx none with
      | none =>
        rw [workerRun_cons_fail hab hd] at h
        rcases List.mem_cons.mp h with rfl | h
        · show ab t = false
          simpa using hab
        · exact ih h
      | some pages =>
        rw [workerRun_cons_ok hab hd] at h
        rcases List.mem_cons.mp h with rfl | h
        · show ab t = false
          simpa using hab
        · rcases List.mem_append.mp h with h | h
          · exact runDocAux_events h
          · exact ih h

/-- Every record a worker leaves is completed, and its occurrences are a
prefix of the full uncancelled scan of its document. -/
theorem workerRun_recs {tl : List Char} {docs : List (Option (List (Option (List Char))))}
    {ab : Nat → Bool} :
    ∀ {t : Nat} {claims : List Nat} {r : WRecord},
      r ∈ (workerRun tl docs ab t claims).2.1 →
        r.completed = true ∧ ∃ pages, docs.getD r.idx none = some pages ∧
          r.occurences <+: scanDoc tl pages := by
  intro t claims
  induction claims generalizing t with
  | nil => intro r h; exact absurd h (List.not_mem_nil _)
  | cons idx rest ih =>
    intro r h
    by_cases hab : ab t = true
    · rw [workerRun_cons_ab hab] at h
      exact absurd h (List.not_mem_nil _)
    · cases hd : docs.getD idx none with
      | none =>
        rw [workerRun_cons_fail hab hd] at h
        exact ih h
      | some pages =>
        rw [workerRun_cons_ok hab hd] at h
        rcases List.mem_cons.mp h with rfl | h
        · exact ⟨rfl, pages, hd, runDocAux_occ_isPre⟩
        · exact ih h

/-- Without cancellation, the total of a worker's records is the sum of the
full per-document occurrence counts over its claims. -/
theorem workerRun_noAbort_total (tl : List Char)
    (docs : List (Option (List (Option (List Char))))) :
    ∀ (t : Nat) (cs : List Nat),
      recsTotal (workerRun tl docs noAbort t cs).2.1 = (cs.map (docOcc tl docs)).sum := by
  intro t cs
  induction cs generalizing t with
  | nil => simp [workerRun_nil, recsTotal]
  | cons idx rest ih =>
    have hno : ¬ noAbort t = true := by simp [noAbort]
    cases hd : docs.getD idx none with
    | none =>
      rw [workerRun_cons_fail hno hd]
      show recsTotal (workerRun tl docs noAbort (t + 1) rest).2.1 = _
      rw [ih, List.map_cons, List.sum_cons]
      have hz : docOcc tl docs idx = 0 := by
        simp only [docOcc]
        rw [hd]
      rw [hz, Nat.zero_add]
    | some pages =>
      rw [workerRun_cons_ok hno hd]
      show recsTotal (⟨idx, (runDocAux tl noAbort idx (t + 1) 0 pages).2.1, true⟩ ::
        (workerRun tl docs noAbort (runDocAux tl noAbort idx (t + 1) 0 pages).2.2 rest).2.1) = _
      rw [recsTotal_cons, ih, List.map_cons, List.sum_cons]
      have hs : docOcc tl docs idx = (scanDoc tl pages).length := by
        simp only [docOcc]
        rw [hd]
      rw [hs, runDocAux_noAbort]
      rfl

/-! ## C5: scan correctness for a document scanned to completion -/

/-- Claim C5: a document that opens and is scanned without cancellation
yields a record with `completed = true` whose occurrences are the full
scan; the pages of the occurrence list are exactly the pages carrying a
line whose lowercase form contains the lowercase target; and that list is
non-empty when some line matches. -/
theorem C5_scan_correct (target : List Char) (pages : List (Option (List Char))) :
    (workerRun (lowerStr target) [some pages] noAbort 0 [0]).2.1
        = [⟨0, scanDoc (lowerStr target) pages, true⟩] ∧
    (∀ p : Nat, (∃ o ∈ scanDoc (lowerStr target) pages, o.page = p) ↔
        ∃ (j : Nat) (txt : List Char), pages[j]? = some (some txt) ∧ p = j + 1 ∧
          ∃ l ∈ cppLines txt, lowerStr target <:+: lowerStr l) ∧
    ((∃ (j : Nat) (txt : List Char), pages[j]? = some (some txt) ∧
        ∃ l ∈ cppLines txt, lowerStr target <:+: lowerStr l) →
      scanDoc (lowerStr target) pages ≠ []) := by
  set tl := lowerStr target with htl
  have hmem : ∀ p : Nat, (∃ o ∈ scanDoc tl pages, o.page = p) ↔
      ∃ (j : Nat) (txt : List Char), pages[j]? = some (some txt) ∧ p = j + 1 ∧
        ∃ l ∈ cppLines txt, tl <:+: lowerStr l := by
    intro p
    constructor
    · rintro ⟨o, ho, rfl⟩
      obtain ⟨j, txt, hj, hsl⟩ := scanDocFrom_mem.mp ho
      obtain ⟨k, l, hk, hm, rfl⟩ := scanLines_mem.mp hsl
      refine ⟨j, txt, hj, ?_, l, List.getElem?_mem hk, hm⟩
      show 0 + j + 1 = j + 1
      omega
    · rintro ⟨j, txt, hj, rfl, l, hl, hm⟩
      obtain ⟨k, hk⟩ := List.getElem?_of_mem hl
      refine ⟨⟨0 + j + 1, 0 + k + 1, l⟩, ?_, show 0 + j + 1 = j + 1 by omega⟩
      exact scanDocFrom_mem.mpr ⟨j, txt, hj, scanLines_mem.mpr ⟨k, l, hk, hm, rfl⟩⟩
  refine ⟨?_, hmem, ?_⟩
  · have hd : ([some pages] : List (Option (List (Option (List Char))))).getD 0 none
        = some pages := rfl
    rw [workerRun_cons_ok (by simp [noAbort]) hd]
    show ⟨0, (runDocAux tl noAbort 0 1 0 pages).2.1, true⟩ ::
        (workerRun tl [some pages] noAbort
          (runDocAux tl noAbort 0 1 0 pages).2.2 []).2.1 = _
    rw [workerRun_nil, runDocAux_noAbort]
    rfl
  · rintro ⟨j, txt, hj, l, hl, hm⟩
    obtain ⟨o, ho, _⟩ := (hmem (j + 1)).mpr ⟨j, txt, hj, rfl, l, hl, hm⟩
    exact List.ne_nil_of_mem ho

/-! ## C9: line numbering of occurrences -/

/-- Claim C9: an occurrence's `line_number` is one more than the index of
its line within its own page (so the count is 1-based and restarts at every
page — it is not a document-wide count), and the (page, line) keys of a
scan are duplicate-free: one matching line yields exactly one occurrence,
however many times the target occurs inside it. -/
theorem C9_line_numbering (tl : List Char) (pages : List (Option (List Char))) :
    (∀ o : Occurence, o ∈ scanDoc tl pages ↔
        ∃ (j : Nat) (txt : List Char) (k : Nat) (l : List Char),
          pages[j]? = some (some txt) ∧ (cppLines txt)[k]? = some l ∧
          tl <:+: lowerStr l ∧ o = ⟨j + 1, k + 1, l⟩) ∧
    ((scanDoc tl pages).map (fun o => (o.page, o.line_number))).Nodup := by
  constructor
  · intro o
    constructor
    · intro ho
      obtain ⟨j, txt, hj, hsl⟩ := scanDocFrom_mem.mp ho
      obtain ⟨k, l, hk, hm, rfl⟩ := scanLines_mem.mp hsl
      refine ⟨j, txt, k, l, hj, hk, hm, ?_⟩
      have h1 : 0 + j + 1 = j + 1 := by omega
      have h2 : 0 + k + 1 = k + 1 := by omega
      rw [h1, h2]
    · rintro ⟨j, txt, k, l, hj, hk, hm, rfl⟩
      refine scanDocFrom_mem.mpr ⟨j, txt, hj, ?_⟩
      have h1 : j + 1 = 0 + j + 1 := by omega
      have h2 : k + 1 = 0 + k + 1 := by omega
      rw [h1, h2]
      exact scanLines_mem.mpr ⟨k, l, hk, hm, rfl⟩
  · exact scanDocFrom_keys_nodup

/-! ## C8: schedule-independence of the total occurrence count -/

/-- Claim C8: two complete uncancelled runs over the same document list and
target — two ways of partitioning the document indices among workers, each
handing out every index exactly once — match the same total number of
occurrences. -/
theorem C8_total_deterministic (tl : List Char)
    (docs : List (Option (List (Option (List Char))))) (s₁ s₂ : List (List Nat))
    (h₁ : List.Perm s₁.flatten (List.range docs.length))
    (h₂ : List.Perm s₂.flatten (List.range docs.length)) :
    scheduleTotal tl docs s₁ = scheduleTotal tl docs s₂ := by
  have key : ∀ s : List (List Nat),
      scheduleTotal tl docs s = (s.flatten.map (docOcc tl docs)).sum := by
    intro s
    rw [scheduleTotal]
    have hcs : ∀ cs ∈ s, recsTotal (workerRun tl docs noAbort 0 cs).2.1
        = (cs.map (docOcc tl docs)).sum := by
      intro cs _
      exact workerRun_noAbort_total tl docs 0 cs
    rw [List.map_congr_left hcs, List.map_flatten, List.sum_flatten, List.map_map]
    rfl
  rw [key s₁, key s₂]
  exact ((h₁.trans h₂.symm).map (docOcc tl docs)).sum_eq

/-- Witness for C8 at a concrete document list and two schedules. -/
theorem C8_total_deterministic_witness :
    scheduleTotal "a".toList [some [some "ab\nba".toList], none, some [none, some "xa".toList]]
        [[0, 1, 2]]
      = scheduleTotal "a".toList [some [some "ab\nba".toList], none, some [none, some "xa".toList]]
        [[2, 0], [1]] :=
  C8_total_deterministic "a".toList
    [some [some "ab\nba".toList], none, some [none, some "xa".toList]]
    [[0, 1, 2]] [[2, 0], [1]] (by decide) (by decide)

/-! ## C6: cooperative cancellation -/

/-- Claim C6: once the abort flag is set — the oracle is monotone and true
at instant `T` — a worker claims no further document and starts no further
page: every claim/page event was guarded by a flag read strictly before
`T`; and every record of a claimed, successfully opened document still
carries `completed = true` with the occurrences appended before the abort
was observed, a prefix of the full scan. -/
theorem C6_cancellation (tl : List Char) (docs : List (Option (List (Option (List Char)))))
    (ab : Nat → Bool) (t : Nat) (claims : List Nat) (T : Nat)
    (hmono : ∀ i j : Nat, i ≤ j → ab i = true → ab j = true) (hT : ab T = true) :
    (∀ ev ∈ (workerRun tl docs ab t claims).1, ev.time < T) ∧
    (∀ r ∈ (workerRun tl docs ab t claims).2.1,
        r.completed = true ∧ ∃ pages, docs.getD r.idx none = some pages ∧
          r.occurences <+: scanDoc tl pages) := by
  constructor
  · intro ev hev
    have hfalse : ab ev.time = false := workerRun_events hev
    by_contra hcontra
    have hle : T ≤ ev.time := by omega
    have := hmono T ev.time hle hT
    rw [this] at hfalse
    exact Bool.noConfusion hfalse
  · intro r hr
    exact workerRun_recs hr

/-- Witness for C6: a concrete run of two claims under a flag set from
instant 2 on. -/
theorem C6_cancellation_witness :
    (∀ ev ∈ (workerRun "a".toList
        [some [some "a\nxa".toList, some "b".toList], some [some "a".toList]]
        (abCut 2) 0 [0, 1]).1, ev.time < 2) ∧
    (∀ r ∈ (workerRun "a".toList
        [some [some "a\nxa".toList, some "b".toList], some [some "a".toList]]
        (abCut 2) 0 [0, 1]).2.1,
        r.completed = true ∧
          ∃ pages, ([some [some "a\nxa".toList, some "b".toList],
              some [some "a".toList]] : List (Option (List (Option (List Char))))).getD r.idx none
            = some pages ∧ r.occurences <+: scanDoc "a".toList pages) :=
  C6_cancellation "a".toList
    [some [some "a\nxa".toList, some "b".toList], some [some "a".toList]]
    (abCut 2) 0 [0, 1] 2
    (fun i j hij h => by
      simp only [abCut, decide_eq_true_eq] at h ⊢
      omega)
    (by decide)

/-! ## C10: command-line parsing -/

/-- The argument loop moves `(directory, target)` exactly as `slots`. -/
theorem parseLoop_dt : ∀ (args : List String) (o : Opts),
    ((parseLoop args o).directory, (parseLoop args o).target) =
      slots (o.directory, o.target) args := by
  intro args
  induction args with
  | nil => intro o; rfl
  | cons a rest ih =>
    intro o
    rw [parseLoop, slots]
    by_cases h1 : a = "--shuffle"
    · rw [if_pos h1, ih]
      have : isFlag a = true := by simp [isFlag, h1]
      rw [if_pos this]
    · rw [if_neg h1]
      by_cases h2 : a = "--sort"
      · rw [if_pos h2, ih]
        have : isFlag a = true := by simp [isFlag, h2]
        rw [if_pos this]
      · rw [if_neg h2]
        by_cases h3 : a = "--printline"
        · rw [if_pos h3, ih]
          have : isFlag a = true := by simp [isFlag, h3]
          rw [if_pos this]
        · rw [if_neg h3]
          by_cases h4 : a = "--printpath"
          · rw [if_pos h4, ih]
            have : isFlag a = true := by simp [isFlag, h4]
            rw [if_pos this]
          · rw [if_neg h4]
            have hnf : ¬ isFlag a = true := by simp [isFlag, h1, h2, h3, h4]
            rw [if_neg hnf]
            by_cases h5 : o.directory = ""
            · rw [if_pos h5, if_pos h5, ih]
            · rw [if_neg h5, if_neg h5]
              by_cases h6 : o.target = ""
              · rw [if_pos h6, if_pos h6, ih]
              · rw [if_neg h6, if_neg h6, ih]

/-- Once both slots hold non-empty strings, further arguments change
nothing. -/
theorem slots_full : ∀ (args : List String) (d t : String), d ≠ "" → t ≠ "" →
    slots (d, t) args = (d, t) := by
  intro args
  induction args with
  | nil => intro d t _ _; rfl
  | cons a rest ih =>
    intro d t hd ht
    rw [slots, if_neg (by simp [hd] : ¬ d = ""), if_neg (by simp [ht] : ¬ t = "")]
    split
    · exact ih d t hd ht
    · exact ih d t hd ht

/-- With the directory slot filled and the target slot empty, the target
becomes the first remaining positional argument (empty and flag arguments
fill nothing). -/
theorem slots_dir : ∀ (args : List String) (d : String), d ≠ "" →
    slots (d, "") args = (d, (positionals args).headD "") := by
  intro args
  induction args with
  | nil => intro d _; rfl
  | cons a rest ih =>
    intro d hd
    rw [slots, if_neg (by simp [hd] : ¬ d = "")]
    by_cases hf : isFlag a = true
    · rw [if_pos hf, ih d hd]
      have : positionals (a :: rest) = positionals rest := by
        simp [positionals, hf]
      rw [this]
    · rw [if_neg hf]
      by_cases ha : a = ""
      · rw [if_pos (by rfl : ("" : String) = "")]
        subst ha
        rw [ih d hd]
        have : positionals ("" :: rest) = positionals rest := by
          simp [positionals]
        rw [this]
      · rw [if_pos rfl, slots_full rest d a hd ha]
        have : positionals (a :: rest) = a :: positionals rest := by
          simp [positionals, hf, ha]
        rw [this]
        rfl

/-- From empty slots, the loop leaves the first positional argument in
`directory` and the second in `target`. -/
theorem slots_none : ∀ (args : List String),
    slots ("", "") args =
      ((positionals args).headD "", (positionals args).tail.headD "") := by
  intro args
  induction args with
  | nil => rfl
  | cons a rest ih =>
    rw [slots]
    by_cases hf : isFlag a = true
    · rw [if_pos hf, ih]
      have : positionals (a :: rest) = positionals rest := by
        simp [positionals, hf]
      rw [this]
    · rw [if_neg hf, if_pos rfl]
      by_cases ha : a = ""
      · subst ha
        rw [ih]
        have : positionals ("" :: rest) = positionals rest := by
          simp [positionals]
        rw [this]
      · rw [slots_dir rest a ha]
        have : positionals (a :: rest) = a :: positionals rest := by
          simp [positionals, hf, ha]
        rw [this]
        rfl

/-- Claim C10 as amended: when exactly one non-empty argument other than
the four recognized flags is supplied, it becomes the search target with
the root defaulting to the current working directory; the usage-and-exit-1
path is taken exactly when no non-empty non-flag argument is supplied.  (An
empty-string argument fills neither slot, so it does not count.) -/
theorem C10_cli_parse (args : List String) :
    (∀ a : String, positionals args = [a] →
        runTargetOf (startOf args) = some a ∧ runDirOf (startOf args) = some "") ∧
    (startOf args = .usage ↔ positionals args = []) := by
  have hdt := parseLoop_dt args Opts.init
  rw [show (Opts.init.directory, Opts.init.target) = ("", "") from rfl, slots_none args] at hdt
  have hdir : (parseLoop args Opts.init).directory = (positionals args).headD "" :=
    congrArg Prod.fst hdt
  have htgt : (parseLoop args Opts.init).target = (positionals args).tail.headD "" :=
    congrArg Prod.snd hdt
  have hpos_ne : ∀ x ∈ positionals args, x ≠ "" := by
    intro x hx
    have := List.mem_filter.mp hx
    exact (by simpa using this.2 : isFlag x = false ∧ ¬ x = "").2
  constructor
  · intro a ha
    have ha' : a ≠ "" := hpos_ne a (by rw [ha]; exact List.mem_singleton_self a)
    rw [ha] at hdir htgt
    have hdir' : (parseLoop args Opts.init).directory = a := hdir
    have htgt' : (parseLoop args Opts.init).target = "" := htgt
    rw [startOf]
    simp only [htgt', hdir']
    simp [runTargetOf, runDirOf, ha']
  · constructor
    · intro h
      rw [startOf] at h
      by_cases htz : (parseLoop args Opts.init).target = ""
      · rw [if_pos htz] at h
        by_cases hdz : (parseLoop args Opts.init).directory = ""
        · rw [hdir] at hdz
          cases hp : positionals args with
          | nil => rfl
          | cons x xs =>
            rw [hp] at hdz
            exact absurd (by simpa using hdz) (hpos_ne x (by rw [hp]; exact List.mem_cons_self x xs))
        · rw [if_pos (by simpa using hdz)] at h
          exact absurd h (by simp)
      · rw [if_neg htz] at h
        exact absurd h (by simp)
    · intro h
      rw [startOf]
      have h1 : (parseLoop args Opts.init).target = "" := by rw [htgt, h]; rfl
      have h2 : (parseLoop args Opts.init).directory = "" := by rw [hdir, h]; rfl
      rw [if_pos h1, if_neg (by simpa using h2)]

/-- Counterexample to claim C10 as stated: the single argument is the empty
string — an argument other than the four recognized flags — yet the program
prints usage and exits 1 instead of searching for it. -/
theorem C10_counterexample :
    (([""] : List String).filter (fun a => !isFlag a)).length = 1 ∧
    startOf [""] = .usage := by
  constructor
  · rfl
  · rfl

/-! ## C2 and C4: the final report pass -/

/-- The report loop prints one block per record with occurrences, in the
order of the record list it is handed. -/
theorem reportEntries_eq (pl pp : Bool) : ∀ rs : List SearchResult,
    reportEntries pl pp rs = (rs.filter (fun r => !r.occurences.isEmpty)).map (mkEntry pl pp) := by
  intro rs
  induction rs with
  | nil => rfl
  | cons r rest ih =>
    rw [reportEntries]
    by_cases h : r.occurences.isEmpty
    · rw [if_pos h, ih, List.filter_cons]
      simp [h]
    · rw [if_neg h, ih, List.filter_cons]
      simp [h]

/-- Claim C2 as amended: on a non-empty Result Store the final report lists
every record with at least one occurrence exactly once — but in Result
Store insertion order, not sorted by (path, minimum page, minimum line):
the sorting call in the code is commented out. -/
theorem C2_report_insertion_order (pl pp : Bool) (tgt dir : List Char)
    (results : List SearchResult) (hne : results ≠ []) :
    finalize pl pp tgt dir results = .report ((reportedRecords results).map (mkEntry pl pp)) := by
  rw [finalize, if_neg (by simpa [List.isEmpty_iff] using hne), reportEntries_eq]
  rfl

/-- Witness for the amended C2 at a concrete store. -/
theorem C2_report_insertion_order_witness :
    finalize false false "t".toList "d".toList [rbC, raC]
      = .report ((reportedRecords [rbC, raC]).map (mkEntry false false)) :=
  C2_report_insertion_order false false "t".toList "d".toList [rbC, raC] (by decide)

/-- Counterexample to claim C2 as stated: a store holding `b.pdf` before
`a.pdf` is reported in that insertion order, although the claim's key
orders `a.pdf` strictly before `b.pdf` (and the two blocks differ). -/
theorem C2_counterexample :
    finalize false false "t".toList "d".toList [rbC, raC]
        = .report [mkEntry false false rbC, mkEntry false false raC] ∧
    specKeyLE raC rbC = true ∧ specKeyLE rbC raC = false ∧
    mkEntry false false rbC ≠ mkEntry false false raC := by
  refine ⟨by decide, by decide, by decide, by decide⟩

/-- Claim C4 as amended: the single no-matches message (naming target and
root) is printed exactly when the Result Store is empty — that is, when no
document was successfully opened — not when the total occurrence count is
zero. -/
theorem C4_no_matches_iff (pl pp : Bool) (tgt dir : List Char)
    (results : List SearchResult) :
    finalize pl pp tgt dir results = .noMatches tgt dir ↔ results = [] := by
  cases results <;> simp [finalize]

/-- Counterexample to claim C4 as stated: a store with one vacuous record
has zero total occurrences, yet the program prints the report header (with
no blocks) instead of the no-matches message. -/
theorem C4_counterexample :
    (([r0C].map (fun r => r.occurences.length)).sum = 0) ∧
    finalize false false "t".toList "d".toList [r0C]
        ≠ .noMatches "t".toList "d".toList ∧
    finalize false false "t".toList "d".toList [r0C] = .report [] := by
  refine ⟨by decide, by decide, by decide⟩

/-! ## Renderer lemmas: the print loop -/

/-- `cntOf` over a cons. -/
theorem cntOf_cons (r : SearchResult) (rs : List SearchResult) :
    cntOf (r :: rs) = rowContribution r + cntOf rs := rfl

/-- `startIncompleteSet` becomes true exactly when an unfinished record
with occurrences has been printed. -/
theorem nextStartInc_eq (b : Bool) (r : SearchResult) :
    nextStartInc b r = (b || !r.completed) := by
  cases hb : b <;> cases hc : r.completed <;> simp [nextStartInc, hb, hc]

theorem printPass_nil (pp : Bool) (w : Nat) (b : Bool) :
    printPass pp w [] b = ([], 0, b) := rfl

theorem printPass_cons_vac {r : SearchResult} (hc : r.completed = true)
    (he : r.occurences.isEmpty = true) (pp : Bool) (w : Nat)
    (rest : List SearchResult) (b : Bool) :
    printPass pp w (r :: rest) b =
      ({ r with printed := true } :: (printPass pp w rest b).1,
       (printPass pp w rest b).2.1, (printPass pp w rest b).2.2) := by
  simp [printPass, hc, he]

theorem printPass_cons_gap {r : SearchResult} (hc : r.completed = false)
    (he : r.occurences.isEmpty = true) (pp : Bool) (w : Nat)
    (rest : List SearchResult) (b : Bool) :
    printPass pp w (r :: rest) b =
      (r :: (printPass pp w rest b).1,
       (printPass pp w rest b).2.1, (printPass pp w rest b).2.2) := by
  simp [printPass, hc, he]

theorem printPass_cons_occ {r : SearchResult} (he : r.occurences.isEmpty = false)
    (pp : Bool) (w : Nat) (rest : List SearchResult) (b : Bool) :
    printPass pp w (r :: rest) b =
      ({ r with printingHeight := blockHeight pp w r,
                printed := if r.completed && !b then true else r.printed } ::
          (printPass pp w rest (nextStartInc b r)).1,
       blockHeight pp w r + (printPass pp w rest (nextStartInc b r)).2.1,
       (printPass pp w rest (nextStartInc b r)).2.2) := by
  simp [printPass, he, nextStartInc]

/-- The print loop touches neither the number nor the order of records. -/
theorem printPass_length (pp : Bool) (w : Nat) :
    ∀ (rs : List SearchResult) (b : Bool), (printPass pp w rs b).1.length = rs.length := by
  intro rs
  induction rs with
  | nil => intro b; rfl
  | cons r rest ih =>
    intro b
    by_cases he : r.occurences.isEmpty = true
    · by_cases hc : r.completed = true
      · rw [printPass_cons_vac hc he]
        simp [ih]
      · rw [printPass_cons_gap (by simpa using hc) he]
        simp [ih]
    · rw [printPass_cons_occ (by simpa using he)]
      simp [ih]

theorem blockedBefore_zero (rs : List SearchResult) : blockedBefore rs 0 = false := rfl

theorem blockedBefore_cons_succ (r : SearchResult) (rs : List SearchResult) (j : Nat) :
    blockedBefore (r :: rs) (j + 1) =
      ((!r.occurences.isEmpty && !r.completed) || blockedBefore rs j) := by
  simp [blockedBefore]

/-- A record with an empty occurrence list leaves the tail of the print
loop unchanged in shape, whatever its completion state. -/
theorem printPass_cons_empt_tail {r : SearchResult} (he : r.occurences.isEmpty = true)
    (pp : Bool) (w : Nat) (rest : List SearchResult) (b : Bool) (j : Nat) :
    (printPass pp w (r :: rest) b).1[j + 1]? = (printPass pp w rest b).1[j]? := by
  by_cases hc : r.completed = true
  · rw [printPass_cons_vac hc he]
    exact List.getElem?_cons_succ
  · rw [printPass_cons_gap (by simpa using hc) he]
    exact List.getElem?_cons_succ

/-- Elementwise description of the print loop (main.cpp lines 304-364): the
record at position `j` keeps its identity; its `printed` flag is set when it
was already set, or it is completed and either vacuous or not preceded (in
the scanned range, nor by the incoming `startIncompleteSet`) by an
unfinished record with occurrences; its `printingHeight` is rewritten to
the current block height whenever it has occurrences. -/
theorem printPass_get (pp : Bool) (w : Nat) :
    ∀ (rs : List SearchResult) (b : Bool) (j : Nat) (r : SearchResult),
      rs[j]? = some r →
      (printPass pp w rs b).1[j]? = some
        { r with
            printed := r.printed ||
              (r.completed && (r.occurences.isEmpty || !(b || blockedBefore rs j))),
            printingHeight :=
              if r.occurences.isEmpty then r.printingHeight else blockHeight pp w r } := by
  intro rs
  induction rs with
  | nil => intro b j r hj; simp at hj
  | cons r₀ rest ih =>
    obtain ⟨path₀, occ₀, cmp₀, prt₀, hgt₀⟩ := r₀
    intro b j r hj
    match j, hj with
    | 0, hj =>
      have hr : (⟨path₀, occ₀, cmp₀, prt₀, hgt₀⟩ : SearchResult) = r := by simpa using hj
      subst hr
      rw [blockedBefore_zero]
      by_cases he : occ₀.isEmpty = true
      · cases cmp₀ with
        | true =>
          rw [printPass_cons_vac rfl he]
          simp [he]
        | false =>
          rw [printPass_cons_gap rfl he]
          simp [he]
      · have he' : occ₀.isEmpty = false := by simpa using he
        rw [printPass_cons_occ he']
        simp only [List.getElem?_cons_zero, Option.some.injEq]
        cases cmp₀ <;> cases b <;> cases prt₀ <;> simp [he']
    | j + 1, hj =>
      have hj' : rest[j]? = some r := by simpa using hj
      by_cases he : occ₀.isEmpty = true
      · have harg : (b || blockedBefore rest j)
            = (b || blockedBefore (⟨path₀, occ₀, cmp₀, prt₀, hgt₀⟩ :: rest) (j + 1)) := by
          rw [blockedBefore_cons_succ]
          simp [he]
        rw [printPass_cons_empt_tail he, ih b j r hj', harg]
      · have he' : occ₀.isEmpty = false := by simpa using he
        have harg : (nextStartInc b ⟨path₀, occ₀, cmp₀, prt₀, hgt₀⟩ || blockedBefore rest j)
            = (b || blockedBefore (⟨path₀, occ₀, cmp₀, prt₀, hgt₀⟩ :: rest) (j + 1)) := by
          rw [nextStartInc_eq, blockedBefore_cons_succ]
          cases cmp₀ <;> simp [he', Bool.or_assoc]
        rw [printPass_cons_occ he', List.getElem?_cons_succ,
          ih (nextStartInc b ⟨path₀, occ₀, cmp₀, prt₀, hgt₀⟩) j r hj']
        rw [harg]

/-- `printedResultCount` equals the total row contribution of the records
the loop leaves behind. -/
theorem printPass_cnt (pp : Bool) (w : Nat) :
    ∀ (rs : List SearchResult) (b : Bool),
      (printPass pp w rs b).2.1 = cntOf (printPass pp w rs b).1 := by
  intro rs
  induction rs with
  | nil => intro b; rfl
  | cons r rest ih =>
    intro b
    by_cases he : r.occurences.isEmpty = true
    · by_cases hc : r.completed = true
      · rw [printPass_cons_vac hc he]
        show (printPass pp w rest b).2.1 =
          cntOf ({ r with printed := true } :: (printPass pp w rest b).1)
        rw [cntOf_cons, ih]
        simp [rowContribution, he]
      · rw [printPass_cons_gap (by simpa using hc) he]
        show (printPass pp w rest b).2.1 = cntOf (r :: (printPass pp w rest b).1)
        rw [cntOf_cons, ih]
        simp [rowContribution, he]
    · have he' : r.occurences.isEmpty = false := by simpa using he
      rw [printPass_cons_occ he']
      show blockHeight pp w r +
          (printPass pp w rest (nextStartInc b r)).2.1 =
        cntOf ({ r with printingHeight := blockHeight pp w r,
                         printed := if r.completed && !b then true else r.printed } ::
          (printPass pp w rest (nextStartInc b r)).1)
      rw [cntOf_cons, ih]
      simp [rowContribution, he']

/-! ## Renderer lemmas: the watermark-advance loop -/

theorem advancePass_nil (a c : Nat) : advancePass [] a c = (a, c) := rfl

theorem advancePass_cons_yes {r : SearchResult} (hp : r.printed = true)
    (rest : List SearchResult) (a c : Nat) :
    advancePass (r :: rest) a c =
      advancePass rest (a + 1)
        (if !r.occurences.isEmpty && a != 0 then c + r.printingHeight else c) := by
  simp [advancePass, hp]

theorem advancePass_cons_no {r : SearchResult} (hp : r.printed = false)
    (rest : List SearchResult) (a c : Nat) :
    advancePass (r :: rest) a c = (a, c) := by
  simp [advancePass, hp]

/-- A record's `completed_last_iter` contribution never exceeds its
`printedResultCount` contribution (index zero is simply skipped). -/
theorem finContribution_le (a : Nat) (r : SearchResult) :
    finContribution a r ≤ rowContribution r := by
  rw [finContribution]
  split
  · exact Nat.zero_le _
  · exact Nat.le_refl _

/-- The walked contributions are bounded by the total row contribution. -/
theorem finSum_le_cnt : ∀ (rs : List SearchResult) (a m : Nat), finSum a rs m ≤ cntOf rs := by
  intro rs
  induction rs with
  | nil => intro a m; cases m <;> simp [finSum, cntOf]
  | cons r rest ih =>
    intro a m
    cases m with
    | zero => simp [finSum]
    | succ m =>
      rw [finSum, cntOf_cons]
      exact Nat.add_le_add (finContribution_le a r) (ih (a + 1) m)

/-- Full description of the watermark-advance loop (main.cpp lines
367-371): it walks some printed prefix of length `m`, moves the index past
it, and accumulates exactly the `completed_last_iter` contributions of the
walked records. -/
theorem advancePass_spec : ∀ (rs : List SearchResult) (a c : Nat),
    ∃ m, m ≤ rs.length ∧
      advancePass rs a c = (a + m, c + finSum a rs m) ∧
      (∀ j, j < m → ∃ r, rs[j]? = some r ∧ r.printed = true) := by
  intro rs
  induction rs with
  | nil =>
    intro a c
    exact ⟨0, Nat.le_refl _, by simp [advancePass_nil, finSum], fun j hj => absurd hj (by omega)⟩
  | cons r rest ih =>
    intro a c
    by_cases hp : r.printed = true
    · obtain ⟨m, hm, heq, hpr⟩ :=
        ih (a + 1) (if !r.occurences.isEmpty && a != 0 then c + r.printingHeight else c)
      refine ⟨m + 1, by simpa using Nat.succ_le_succ hm, ?_, ?_⟩
      · rw [advancePass_cons_yes hp, heq, finSum]
        have h1 : a + 1 + m = a + (m + 1) := by omega
        have h2 : (if !r.occurences.isEmpty && a != 0 then c + r.printingHeight else c)
            + finSum (a + 1) rest m = c + (finContribution a r + finSum (a + 1) rest m) := by
          rw [finContribution, rowContribution]
          by_cases ha : a = 0
          · have : (a != 0) = false := by simp [ha]
            rw [if_pos ha]
            simp [this]
          · have hne : (a != 0) = true := by simp [ha]
            rw [if_neg ha]
            by_cases hocc : r.occurences.isEmpty = true
            · rw [if_pos hocc]
              simp [hocc, hne]
            · have hocc' : r.occurences.isEmpty = false := by simpa using hocc
              rw [if_neg (by simp [hocc'] : ¬ r.occurences.isEmpty = true)]
              simp [hocc', hne]
              omega
        rw [h1, h2]
      · intro j hj
        cases j with
        | zero => exact ⟨r, by simp, hp⟩
        | succ j =>
          obtain ⟨r', hr', hpr'⟩ := hpr j (by omega)
          exact ⟨r', by simpa using hr', hpr'⟩
    · have hp' : r.printed = false := by simpa using hp
      exact ⟨0, Nat.zero_le _, by simp [advancePass_cons_no hp', finSum],
        fun j hj => absurd hj (by omega)⟩

/-! ## Renderer lemmas: reachable-state invariant -/

/-- The invariant holds before any record exists. -/
theorem storeInv_init : StoreInv RenderState.init [] := by
  refine ⟨Nat.le_refl _, ?_, ?_⟩
  · intro j r hj
    simp [RenderState.init] at hj
  · intro j r hj
    simp at hj

/-- In-place mutation of one record preserves the invariant when it keeps
the `printed` flag and never clears `completed`. -/
theorem storeInv_modify (st : RenderState) (s : List SearchResult)
    (f : SearchResult → SearchResult)
    (hpr : ∀ r, (f r).printed = r.printed)
    (hcm : ∀ r, r.completed = true → (f r).completed = true)
    (i : Nat) (hinv : StoreInv st s) : StoreInv st (s.modify f i) := by
  obtain ⟨h1, h2, h3⟩ := hinv
  have hget : ∀ j, (s.modify f i)[j]? = ((fun a => if i = j then f a else a) <$> s[j]?) :=
    fun j => List.getElem?_modify f i s j
  refine ⟨by simpa using h1, ?_, ?_⟩
  · intro j r hj hr
    rw [hget] at hr
    match hs : s[j]? with
    | none => rw [hs] at hr; simp at hr
    | some r₀ =>
      rw [hs] at hr
      simp at hr
      subst hr
      by_cases hij : i = j
      · rw [if_pos hij, hpr]
        exact h2 j r₀ hj hs
      · rw [if_neg hij]
        exact h2 j r₀ hj hs
  · intro j r hr hp
    rw [hget] at hr
    match hs : s[j]? with
    | none => rw [hs] at hr; simp at hr
    | some r₀ =>
      rw [hs] at hr
      simp at hr
      subst hr
      by_cases hij : i = j
      · rw [if_pos hij] at hp ⊢
        rw [hpr] at hp
        exact hcm r₀ (h3 j r₀ hs hp)
      · rw [if_neg hij] at hp ⊢
        exact h3 j r₀ hs hp

/-- One worker mutation preserves the invariant. -/
theorem applyOp_inv (st : RenderState) (s : List SearchResult) (op : WorkerOp)
    (hinv : StoreInv st s) : StoreInv st (applyOp op s) := by
  obtain ⟨h1, h2, h3⟩ := hinv
  cases op with
  | addRecord p =>
    refine ⟨by simp [applyOp]; omega, ?_, ?_⟩
    · intro j r hj hr
      rw [applyOp, List.getElem?_append] at hr
      rw [if_pos (by omega : j < s.length)] at hr
      exact h2 j r hj hr
    · intro j r hr hp
      rw [applyOp, List.getElem?_append] at hr
      by_cases hjl : j < s.length
      · rw [if_pos hjl] at hr
        exact h3 j r hr hp
      · rw [if_neg hjl] at hr
        match hd : j - s.length, hr with
        | 0, hr =>
          have : r = ⟨p, [], false, false, 0⟩ := by
            simpa using hr.symm
          subst this
          simp at hp
        | d + 1, hr =>
          simp at hr
  | addOcc i o =>
    exact storeInv_modify st s (fun r => { r with occurences := r.occurences ++ [o] })
      (fun r => rfl) (fun r h => h) i ⟨h1, h2, h3⟩
  | complete i =>
    exact storeInv_modify st s (fun r => { r with completed := true })
      (fun r => rfl) (fun r _ => rfl) i ⟨h1, h2, h3⟩

/-- A batch of worker mutations preserves the invariant. -/
theorem applyOps_inv (st : RenderState) (ops : List WorkerOp) :
    ∀ (s : List SearchResult), StoreInv st s → StoreInv st (applyOps ops s) := by
  induction ops with
  | nil => intro s h; exact h
  | cons op rest ih =>
    intro s h
    exact ih (applyOp op s) (applyOp_inv st s op h)

/-- Dropping the untouched prefix of the store the cycle rebuilt returns
the reprinted suffix. -/
theorem takeAppend_drop (store : List SearchResult) (idx : Nat) (suf : List SearchResult)
    (hlen : suf.length = (store.drop idx).length) :
    (store.take idx ++ suf).drop idx = suf := by
  by_cases h : idx ≤ store.length
  · have hd := List.drop_left (store.take idx) suf
    rw [List.length_take_of_le h] at hd
    exact hd
  · have h1 : store.take idx = store := List.take_of_length_le (by omega)
    have h2 : suf = [] := by
      rw [List.length_drop] at hlen
      have hz : store.length - idx = 0 := by omega
      rw [hz] at hlen
      exact List.length_eq_zero.mp hlen
    subst h2
    rw [h1, List.append_nil]
    exact List.drop_eq_nil_of_le (by omega)

theorem renderCycle_stIn (pp : Bool) (w : Nat) (st : RenderState) (store : List SearchResult) :
    (renderCycle pp w st store).stIn = st := rfl

theorem renderCycle_erased (pp : Bool) (w : Nat) (st : RenderState) (store : List SearchResult) :
    (renderCycle pp w st store).erased = eraseCount st := rfl

theorem renderCycle_written (pp : Bool) (w : Nat) (st : RenderState) (store : List SearchResult) :
    (renderCycle pp w st store).written =
      (printPass pp w (store.drop st.idx_startUnprinted) false).2.1 + 1 := rfl

theorem renderCycle_store (pp : Bool) (w : Nat) (st : RenderState) (store : List SearchResult) :
    (renderCycle pp w st store).store =
      store.take st.idx_startUnprinted ++
        (printPass pp w (store.drop st.idx_startUnprinted) false).1 := rfl

theorem renderCycle_stOut (pp : Bool) (w : Nat) (st : RenderState) (store : List SearchResult) :
    (renderCycle pp w st store).stOut =
      ⟨(advancePass (printPass pp w (store.drop st.idx_startUnprinted) false).1
          st.idx_startUnprinted 0).1,
       (printPass pp w (store.drop st.idx_startUnprinted) false).2.1,
       (advancePass (printPass pp w (store.drop st.idx_startUnprinted) false).1
          st.idx_startUnprinted 0).2,
       true⟩ := rfl

/-- The watermark never moves backwards within one cycle. -/
theorem renderCycle_mono (pp : Bool) (w : Nat) (st : RenderState) (store : List SearchResult) :
    st.idx_startUnprinted ≤ (renderCycle pp w st store).stOut.idx_startUnprinted := by
  obtain ⟨m, _, hadv, _⟩ :=
    advancePass_spec (printPass pp w (store.drop st.idx_startUnprinted) false).1
      st.idx_startUnprinted 0
  rw [renderCycle_stOut]
  show st.idx_startUnprinted ≤
    (advancePass (printPass pp w (store.drop st.idx_startUnprinted) false).1
      st.idx_startUnprinted 0).1
  rw [hadv]
  omega

/-- Access into the store a cycle leaves behind: untouched below the old
watermark, the reprinted suffix above it. -/
theorem renderCycle_store_get (pp : Bool) (w : Nat) (st : RenderState)
    (store : List SearchResult) (hlen : st.idx_startUnprinted ≤ store.length) (j : Nat) :
    (renderCycle pp w st store).store[j]? =
      if j < st.idx_startUnprinted then store[j]?
      else (printPass pp w (store.drop st.idx_startUnprinted) false).1[j - st.idx_startUnprinted]? := by
  rw [renderCycle_store, List.getElem?_append, List.length_take_of_le hlen]
  by_cases hj : j < st.idx_startUnprinted
  · rw [if_pos hj, if_pos hj, List.getElem?_take, if_pos hj]
  · rw [if_neg hj, if_neg hj]

/-- One renderer cycle preserves the invariant. -/
theorem renderCycle_inv (pp : Bool) (w : Nat) (st : RenderState) (store : List SearchResult)
    (hinv : StoreInv st store) :
    StoreInv (renderCycle pp w st store).stOut (renderCycle pp w st store).store := by
  obtain ⟨hlen, hpre, hpc⟩ := hinv
  have hsuflen : (printPass pp w (store.drop st.idx_startUnprinted) false).1.length
      = (store.drop st.idx_startUnprinted).length := printPass_length pp w _ false
  obtain ⟨m, hm, hadv, hwalk⟩ :=
    advancePass_spec (printPass pp w (store.drop st.idx_startUnprinted) false).1
      st.idx_startUnprinted 0
  have hidx : (renderCycle pp w st store).stOut.idx_startUnprinted
      = st.idx_startUnprinted + m := by
    rw [renderCycle_stOut]
    show (advancePass (printPass pp w (store.drop st.idx_startUnprinted) false).1
      st.idx_startUnprinted 0).1 = _
    rw [hadv]
  have hstlen : (renderCycle pp w st store).store.length = store.length := by
    rw [renderCycle_store, List.length_append, List.length_take_of_le hlen, hsuflen,
      List.length_drop]
    omega
  have hsufget : ∀ (k : Nat) (r₀ : SearchResult),
      (store.drop st.idx_startUnprinted)[k]? = some r₀ →
      (printPass pp w (store.drop st.idx_startUnprinted) false).1[k]? = some
        { r₀ with
            printed := r₀.printed || (r₀.completed && (r₀.occurences.isEmpty ||
              !(false || blockedBefore (store.drop st.idx_startUnprinted) k))),
            printingHeight := if r₀.occurences.isEmpty then r₀.printingHeight
              else blockHeight pp w r₀ } :=
    fun k r₀ hk => printPass_get pp w _ false k r₀ hk
  refine ⟨?_, ?_, ?_⟩
  · rw [hidx, hstlen]
    rw [hsuflen, List.length_drop] at hm
    omega
  · intro j r hj hr
    rw [hidx] at hj
    rw [renderCycle_store_get pp w st store hlen] at hr
    by_cases hjlt : j < st.idx_startUnprinted
    · rw [if_pos hjlt] at hr
      exact hpre j r hjlt hr
    · rw [if_neg hjlt] at hr
      obtain ⟨r', hr', hpr'⟩ := hwalk (j - st.idx_startUnprinted) (by omega)
      rw [hr] at hr'
      cases hr'
      exact hpr'
  · intro j r hr hp
    rw [renderCycle_store_get pp w st store hlen] at hr
    by_cases hjlt : j < st.idx_startUnprinted
    · rw [if_pos hjlt] at hr
      exact hpc j r hr hp
    · rw [if_neg hjlt] at hr
      match hk : (store.drop st.idx_startUnprinted)[j - st.idx_startUnprinted]? with
      | none =>
        have : (printPass pp w (store.drop st.idx_startUnprinted) false).1[j - st.idx_startUnprinted]? = none := by
          rw [List.getElem?_eq_none_iff] at hk ⊢
          omega
        rw [this] at hr
        simp at hr
      | some r₀ =>
        have hout := hsufget (j - st.idx_startUnprinted) r₀ hk
        rw [hout] at hr
        have hreq : r = { r₀ with
            printed := r₀.printed || (r₀.completed && (r₀.occurences.isEmpty ||
              !(false || blockedBefore (store.drop st.idx_startUnprinted) (j - st.idx_startUnprinted)))),
            printingHeight := if r₀.occurences.isEmpty then r₀.printingHeight
              else blockHeight pp w r₀ } := by
          simpa using hr.symm
        have hs0 : store[j]? = some r₀ := by
          rw [← hk, List.getElem?_drop]
          congr 1
          omega
        subst hreq
        simp only [] at hp ⊢
        show r₀.completed = true
        rcases Bool.or_eq_true_iff.mp hp with hp0 | hp1
        · exact hpc j r₀ hs0 hp0
        · exact Bool.and_elim_left hp1

/-! ## Renderer lemmas: whole runs -/

theorem runRenderer_nil (pp : Bool) (st : RenderState) (store : List SearchResult) :
    runRenderer pp st store [] = [] := rfl

theorem runRenderer_cons (pp : Bool) (st : RenderState) (store : List SearchResult)
    (inp : CycleInput) (rest : List CycleInput) :
    runRenderer pp st store (inp :: rest) =
      renderCycle pp inp.width st (applyOps inp.ops store) ::
        runRenderer pp (renderCycle pp inp.width st (applyOps inp.ops store)).stOut
          (renderCycle pp inp.width st (applyOps inp.ops store)).store rest := rfl

/-- The first cycle of a run starts from the state the run was started
with. -/
theorem runRenderer_head (pp : Bool) :
    ∀ (inputs : List CycleInput) (st : RenderState) (store : List SearchResult)
      (y : CycleOut), (runRenderer pp st store inputs)[0]? = some y → y.stIn = st := by
  intro inputs st store y h
  cases inputs with
  | nil => simp [runRenderer_nil] at h
  | cons inp rest =>
    rw [runRenderer_cons] at h
    have : renderCycle pp inp.width st (applyOps inp.ops store) = y := by simpa using h
    rw [← this, renderCycle_stIn]

/-- Consecutive cycles chain: each starts from the state its predecessor
left. -/
theorem runRenderer_chain (pp : Bool) :
    ∀ (inputs : List CycleInput) (st : RenderState) (store : List SearchResult)
      (k : Nat) (x y : CycleOut),
      (runRenderer pp st store inputs)[k]? = some x →
      (runRenderer pp st store inputs)[k + 1]? = some y →
      y.stIn = x.stOut := by
  intro inputs
  induction inputs with
  | nil => intro st store k x y hx _; simp [runRenderer_nil] at hx
  | cons inp rest ih =>
    intro st store k x y hx hy
    rw [runRenderer_cons] at hx hy
    cases k with
    | zero =>
      have hx' : renderCycle pp inp.width st (applyOps inp.ops store) = x := by simpa using hx
      have hy' := runRenderer_head pp rest _ _ y (by simpa using hy)
      rw [hy', ← hx']
    | succ k =>
      exact ih _ _ k x y (by simpa using hx) (by simpa using hy)

/-- Every cycle of a run is a `renderCycle` applied to its own input
state. -/
theorem runRenderer_shape (pp : Bool) :
    ∀ (inputs : List CycleInput) (st : RenderState) (store : List SearchResult)
      (k : Nat) (x : CycleOut),
      (runRenderer pp st store inputs)[k]? = some x →
      ∃ (v : Nat) (store₀ : List SearchResult), x = renderCycle pp v x.stIn store₀ := by
  intro inputs
  induction inputs with
  | nil => intro st store k x h; simp [runRenderer_nil] at h
  | cons inp rest ih =>
    intro st store k x h
    rw [runRenderer_cons] at h
    cases k with
    | zero =>
      have hx : renderCycle pp inp.width st (applyOps inp.ops store) = x := by simpa using h
      refine ⟨inp.width, applyOps inp.ops store, ?_⟩
      rw [← hx, renderCycle_stIn]
    | succ k =>
      exact ih _ _ k x (by simpa using h)

/-- Along a run from an invariant-satisfying start, every cycle's output
state and store satisfy the invariant. -/
theorem runRenderer_inv (pp : Bool) :
    ∀ (inputs : List CycleInput) (st : RenderState) (store : List SearchResult),
      StoreInv st store →
      ∀ (k : Nat) (x : CycleOut), (runRenderer pp st store inputs)[k]? = some x →
        StoreInv x.stOut x.store := by
  intro inputs
  induction inputs with
  | nil => intro st store _ k x h; simp [runRenderer_nil] at h
  | cons inp rest ih =>
    intro st store hinv k x h
    rw [runRenderer_cons] at h
    have hinv₁ : StoreInv st (applyOps inp.ops store) := applyOps_inv st inp.ops store hinv
    have hout := renderCycle_inv pp inp.width st (applyOps inp.ops store) hinv₁
    cases k with
    | zero =>
      have hx : renderCycle pp inp.width st (applyOps inp.ops store) = x := by simpa using h
      rw [← hx]
      exact hout
    | succ k =>
      exact ih _ _ hout k x (by simpa using h)

/-- Below the watermark everything is completed, so the watermark is
bounded by the number of completed records. -/
theorem storeInv_count (st : RenderState) (store : List SearchResult)
    (hinv : StoreInv st store) :
    st.idx_startUnprinted ≤ (store.filter (fun r => r.completed)).length := by
  obtain ⟨hlen, hpre, hpc⟩ := hinv
  have hsub : List.Sublist (store.take st.idx_startUnprinted) store :=
    List.take_sublist _ _
  have hcp : (store.take st.idx_startUnprinted).countP (fun r => r.completed)
      = (store.take st.idx_startUnprinted).length := by
    apply List.countP_eq_length.mpr
    intro r hr
    obtain ⟨k, hk⟩ := List.getElem?_of_mem hr
    rw [List.getElem?_take] at hk
    by_cases hklt : k < st.idx_startUnprinted
    · rw [if_pos hklt] at hk
      have hp := hpre k r hklt hk
      have := hpc k r hk hp
      simpa using this
    · rw [if_neg hklt] at hk
      simp at hk
  calc st.idx_startUnprinted
      = (store.take st.idx_startUnprinted).length := (List.length_take_of_le hlen).symm
    _ = (store.take st.idx_startUnprinted).countP (fun r => r.completed) := hcp.symm
    _ ≤ store.countP (fun r => r.completed) := hsub.countP_le _
    _ = (store.filter (fun r => r.completed)).length := by
        simp [List.countP_eq_length_filter]

/-! ## C7: the finalized watermark -/

/-- Claim C7: along every renderer run, the watermark is non-decreasing
(within each cycle and from one cycle to the next), everything strictly
below it is printed and completed — so it advances only across rendered
records and never past an incomplete one — and it never exceeds the count
of currently completed records. -/
theorem C7_watermark (pp : Bool) (inputs : List CycleInput) (k : Nat) (x : CycleOut)
    (hx : (runOutputs pp inputs)[k]? = some x) :
    x.stIn.idx_startUnprinted ≤ x.stOut.idx_startUnprinted ∧
    (∀ y : CycleOut, (runOutputs pp inputs)[k + 1]? = some y →
        x.stOut.idx_startUnprinted ≤ y.stOut.idx_startUnprinted) ∧
    (∀ (j : Nat) (r : SearchResult), j < x.stOut.idx_startUnprinted →
        x.store[j]? = some r → r.printed = true ∧ r.completed = true) ∧
    x.stOut.idx_startUnprinted ≤ (x.store.filter (fun r => r.completed)).length := by
  have hinv : StoreInv x.stOut x.store :=
    runRenderer_inv pp inputs RenderState.init [] storeInv_init k x hx
  have hmono : x.stIn.idx_startUnprinted ≤ x.stOut.idx_startUnprinted := by
    obtain ⟨v, store₀, hshape⟩ := runRenderer_shape pp inputs RenderState.init [] k x hx
    have := renderCycle_mono pp v x.stIn store₀
    rw [← hshape] at this
    exact this
  refine ⟨hmono, ?_, ?_, storeInv_count x.stOut x.store hinv⟩
  · intro y hy
    have hchain := runRenderer_chain pp inputs RenderState.init [] k x y hx hy
    have hymono : y.stIn.idx_startUnprinted ≤ y.stOut.idx_startUnprinted := by
      obtain ⟨v, store₀, hshape⟩ := runRenderer_shape pp inputs RenderState.init [] (k + 1) y hy
      have := renderCycle_mono pp v y.stIn store₀
      rw [← hshape] at this
      exact this
    rw [hchain] at hymono
    exact hymono
  · intro j r hj hr
    obtain ⟨_, hpre, hpc⟩ := hinv
    have hp := hpre j r hj hr
    exact ⟨hp, hpc j r hr hp⟩

/-- Witness for C7 on the concrete one-cycle run. -/
theorem C7_watermark_witness :
    c7Out.stIn.idx_startUnprinted ≤ c7Out.stOut.idx_startUnprinted ∧
    (∀ y : CycleOut, (runOutputs false c7Inputs)[0 + 1]? = some y →
        c7Out.stOut.idx_startUnprinted ≤ y.stOut.idx_startUnprinted) ∧
    (∀ (j : Nat) (r : SearchResult), j < c7Out.stOut.idx_startUnprinted →
        c7Out.store[j]? = some r → r.printed = true ∧ r.completed = true) ∧
    c7Out.stOut.idx_startUnprinted ≤ (c7Out.store.filter (fun r => r.completed)).length :=
  C7_watermark false c7Inputs 0 c7Out (by decide)

/-! ## C3: marking a record rendered -/

/-- Claim C3 as amended: during one scan of the print loop, a record's
rendered flag ends true exactly when it was already true, or the record is
completed and either has zero occurrences (vacuous, marked immediately) or
no record printed earlier in this scan — from the watermark — was an
unfinished record with occurrences.  An unfinished record with zero
occurrences is skipped by `continue` and blocks nothing; only an unfinished
record *with* occurrences sets `startIncompleteSet` and blocks the marking
of every later record of the scan. -/
theorem C3_rendered_marking (pp : Bool) (w : Nat) (rs : List SearchResult) (b : Bool)
    (j : Nat) (r r' : SearchResult) (hj : rs[j]? = some r)
    (hj' : (printPass pp w rs b).1[j]? = some r') :
    r'.printed = (r.printed ||
      (r.completed && (r.occurences.isEmpty || !(b || blockedBefore rs j)))) := by
  have hget := printPass_get pp w rs b j r hj
  rw [hget] at hj'
  have heq : { r with
      printed := r.printed ||
        (r.completed && (r.occurences.isEmpty || !(b || blockedBefore rs j))),
      printingHeight :=
        if r.occurences.isEmpty then r.printingHeight else blockHeight pp w r } = r' := by
    simpa using hj'
  rw [← heq]

/-- Witness for the amended C3: scanning `[gapRec, okRec]` marks `okRec`
printed by the stated rule. -/
theorem C3_rendered_marking_witness :
    okRecOut.printed = (okRec.printed ||
      (okRec.completed && (okRec.occurences.isEmpty ||
        !(false || blockedBefore [gapRec, okRec] 1)))) :=
  C3_rendered_marking false 80 [gapRec, okRec] false 1 okRec okRecOut (by decide) (by decide)

/-- Counterexample to claim C3 as stated: after one cycle the renderer has
marked record 1 rendered although record 0 — before it in the Result Store
sequence, with zero occurrences and not completed — is not rendered: the
gap neither blocked the later marking nor forced the prefix rule. -/
theorem C3_counterexample :
    (c3Store[0]?).map (fun r => r.printed) = some false ∧
    (c3Store[0]?).map (fun r => r.completed) = some false ∧
    (c3Store[0]?).map (fun r => r.occurences.isEmpty) = some true ∧
    (c3Store[1]?).map (fun r => r.printed) = some true ∧
    (c3Store[1]?).map (fun r => r.completed) = some true := by
  refine ⟨by decide, by decide, by decide, by decide, by decide⟩

/-! ## C1: the erase count -/

/-- Claim C1 as amended: from one redraw cycle to the next, the rows erased
at the start of cycle k+1 equal the rows written in cycle k *minus* the
wrapped rows of the records the watermark passed at the end of cycle k
(those with occurrences at a non-zero index, `finRows`): the code leaves
the newly finalized records' rows standing instead of erasing them.  The
subtrahend is strictly below the written count, so the unsigned
subtraction never wraps. -/
theorem C1_erase_accounting (pp : Bool) (inputs : List CycleInput) (k : Nat) (x y : CycleOut)
    (hx : (runOutputs pp inputs)[k]? = some x)
    (hy : (runOutputs pp inputs)[k + 1]? = some y) :
    y.erased = x.written -
      finRows x.store x.stIn.idx_startUnprinted x.stOut.idx_startUnprinted ∧
    finRows x.store x.stIn.idx_startUnprinted x.stOut.idx_startUnprinted < x.written := by
  obtain ⟨v, store₀, hshape⟩ := runRenderer_shape pp inputs RenderState.init [] k x hx
  have hsuflen : (printPass pp v (store₀.drop x.stIn.idx_startUnprinted) false).1.length
      = (store₀.drop x.stIn.idx_startUnprinted).length := printPass_length pp v _ false
  obtain ⟨m, hm, hadv, _⟩ :=
    advancePass_spec (printPass pp v (store₀.drop x.stIn.idx_startUnprinted) false).1
      x.stIn.idx_startUnprinted 0
  have hwr := renderCycle_written pp v x.stIn store₀
  rw [← hshape] at hwr
  have hstore := renderCycle_store pp v x.stIn store₀
  rw [← hshape] at hstore
  have hstout := renderCycle_stOut pp v x.stIn store₀
  rw [← hshape] at hstout
  have hidxout : x.stOut.idx_startUnprinted = x.stIn.idx_startUnprinted + m := by
    rw [hstout]
    show (advancePass (printPass pp v (store₀.drop x.stIn.idx_startUnprinted) false).1
      x.stIn.idx_startUnprinted 0).1 = _
    rw [hadv]
  have hcli : x.stOut.completed_last_iter =
      finSum x.stIn.idx_startUnprinted
        (printPass pp v (store₀.drop x.stIn.idx_startUnprinted) false).1 m := by
    rw [hstout]
    show (advancePass (printPass pp v (store₀.drop x.stIn.idx_startUnprinted) false).1
      x.stIn.idx_startUnprinted 0).2 = _
    rw [hadv]
    exact Nat.zero_add _
  have hlast : x.stOut.lastPrintedResultCount =
      (printPass pp v (store₀.drop x.stIn.idx_startUnprinted) false).2.1 := by
    rw [hstout]
  have hprog : x.stOut.progress_printed = true := by
    rw [hstout]
  have hdrop : x.store.drop x.stIn.idx_startUnprinted
      = (printPass pp v (store₀.drop x.stIn.idx_startUnprinted) false).1 := by
    rw [hstore]
    exact takeAppend_drop store₀ x.stIn.idx_startUnprinted _ hsuflen
  have hfin : finRows x.store x.stIn.idx_startUnprinted x.stOut.idx_startUnprinted
      = finSum x.stIn.idx_startUnprinted
          (printPass pp v (store₀.drop x.stIn.idx_startUnprinted) false).1 m := by
    rw [finRows, hdrop, hidxout]
    have : x.stIn.idx_startUnprinted + m - x.stIn.idx_startUnprinted = m := by omega
    rw [this]
  have hbound : finSum x.stIn.idx_startUnprinted
      (printPass pp v (store₀.drop x.stIn.idx_startUnprinted) false).1 m
      ≤ (printPass pp v (store₀.drop x.stIn.idx_startUnprinted) false).2.1 := by
    rw [printPass_cnt]
    exact finSum_le_cnt _ _ m
  have hychain : y.stIn = x.stOut := runRenderer_chain pp inputs RenderState.init [] k x y hx hy
  obtain ⟨vy, storeY, hshapeY⟩ := runRenderer_shape pp inputs RenderState.init [] (k + 1) y hy
  have hyer := renderCycle_erased pp vy y.stIn storeY
  rw [← hshapeY] at hyer
  have hyer' : y.erased = 1 + (x.stOut.lastPrintedResultCount - x.stOut.completed_last_iter) := by
    rw [hyer, hychain, eraseCount, hprog]
    simp
  rw [hyer', hfin, hwr, hcli, hlast]
  constructor
  · omega
  · omega

/-- Counterexample to claim C1 as stated: cycle 0 writes 5 wrapped rows
(two 2-row record blocks and the progress line) but cycle 1 erases only 3
(the record finalized at a non-zero index keeps its 2 rows on screen). -/
theorem C1_counterexample :
    ((runOutputs false c1Inputs).map (fun c => c.erased))[1]? = some 3 ∧
    ((runOutputs false c1Inputs).map (fun c => c.written))[0]? = some 5 ∧
    ((runOutputs false c1Inputs).map (fun c => c.erased))[1]?
      ≠ ((runOutputs false c1Inputs).map (fun c => c.written))[0]? := by
  refine ⟨by decide, by decide, by decide⟩

/-- Witness for the amended C1 on the concrete two-cycle run. -/
theorem C1_erase_accounting_witness :
    c1y.erased = c1x.written -
      finRows c1x.store c1x.stIn.idx_startUnprinted c1x.stOut.idx_startUnprinted ∧
    finRows c1x.store c1x.stIn.idx_startUnprinted c1x.stOut.idx_startUnprinted < c1x.written :=
  C1_erase_accounting false c1Inputs 0 c1x c1y (by decide) (by decide)

end PDFms
